import Mathlib

/-!
# Verification of the similarity_generator repository

This development embeds the similarity_generator repository in Lean 4 and
settles the specification claims against it.

The repository holds two Python source files:

* `src/preprocess.py` — the `Preprocess` class (duplicate-index removal,
  label clean-up stages, one-hot encoding).  It is embedded here directly
  from the source.
* `src/tests/test_similarity.py` — the unit tests of the `Similarity`
  class.  The `Similarity` class itself (`similarity.py`) is not part of
  the available sources; its operations (`__init__` validation,
  `generate`, `_convert_to_long_format`, `_add_rank_column`) are modelled
  from the specification, and, where the test file pins down observable
  behaviour, from the tests.  Such definitions carry a doc comment
  starting with `Modelled from the spec:`.

Tabular data is embedded shallowly: a data-frame row is an association
list from column names to values, a data frame is a list of rows, and
Spark/pandas column operations (`withColumn`, `drop`, `select`) become
list transformations.  Randomness (`pyspark.sql.functions.rand`, the
random tie-break of `_add_rank_column`) is modelled by an explicit
priority draw passed as an argument; uniform draws are modelled by
quantifying over (or enumerating) injective priorities.
-/

namespace SimilarityGenerator

/-- A cell value of a (string-typed) Spark data frame used by
`Preprocess`: a string, an integer (the one-hot indicators), or null. -/
inductive Val where
  | vstr (s : String)
  | vint (n : Int)
  | vnull
  deriving DecidableEq

/-- A data-frame row: an association list from column names to values. -/
abbrev Row := List (String × Val)

/-- A data frame: a list of rows. -/
abbrev DFrame := List Row

/-- Value of column `c` in row `r` (Spark's `f.col(c)`); absent columns
read as null. -/
def getCol : Row → String → Val
  | [], _ => Val.vnull
  | p :: t, c => if p.1 = c then p.2 else getCol t c

/-- Whether row `r` has a binding for column `c`. -/
def hasCol : Row → String → Bool
  | [], _ => false
  | p :: t, c => p.1 = c || hasCol t c

/-- Row-level effect of Spark's `withColumn c v`: replace the binding of
`c` when present, append it otherwise. -/
def setCol (r : Row) (c : String) (v : Val) : Row :=
  if hasCol r c then r.map (fun p => if p.1 = c then (c, v) else p)
  else r ++ [(c, v)]

/-- Row-level effect of Spark's `drop c`. -/
def dropCol (r : Row) (c : String) : Row :=
  r.filter (fun p => p.1 ≠ c)

/-- Row-level effect of Spark's `select cs`: the requested columns, in
the requested order. -/
def selectCols (cs : List String) (r : Row) : Row :=
  cs.map (fun c => (c, getCol r c))

/-- Column names of a data frame (Spark's `df.columns`), read off the
first row; the operations above keep rows uniform. -/
def dfCols (df : DFrame) : List String :=
  match df with
  | [] => []
  | r :: _ => r.map (fun p => p.1)

@[simp] theorem getCol_nil (c : String) : getCol [] c = Val.vnull := rfl

theorem getCol_map_update (r : Row) (c n : String) (v : Val) (h : n ≠ c) :
    getCol (r.map (fun p => if p.1 = c then (c, v) else p)) n = getCol r n := by
  have hcn : ¬ c = n := fun hc => h hc.symm
  induction r with
  | nil => rfl
  | cons p t ih =>
    by_cases hp : p.1 = c
    · have hpn : ¬ p.1 = n := fun hc => h (hc.symm.trans hp)
      simp [getCol, hp, hpn, hcn, ih]
    · by_cases hpn : p.1 = n
      · simp [getCol, hp, hpn, hcn, h]
      · simp [getCol, hp, hpn, ih]

theorem getCol_append_single_ne (r : Row) (c n : String) (v : Val) (h : n ≠ c) :
    getCol (r ++ [(c, v)]) n = getCol r n := by
  have hcn : ¬ c = n := fun hc => h hc.symm
  induction r with
  | nil => simp [getCol, hcn]
  | cons p t ih =>
    by_cases hpn : p.1 = n
    · simp [getCol, hpn]
    · simp [getCol, hpn, ih]

theorem getCol_setCol_self (r : Row) (c : String) (v : Val) :
    getCol (setCol r c v) c = v := by
  unfold setCol
  split
  · next hmem =>
    induction r with
    | nil => simp [hasCol] at hmem
    | cons p t ih =>
      by_cases hp : p.1 = c
      · simp [getCol, hp]
      · simp only [hasCol, Bool.or_eq_true, decide_eq_true_eq] at hmem
        rcases hmem with hmem | hmem
        · exact absurd hmem hp
        · simp only [List.map_cons, if_neg hp]
          have := ih hmem
          simpa [getCol, hp] using this
  · induction r with
    | nil => simp [getCol]
    | cons p t ih =>
      next hmem =>
      simp only [hasCol, Bool.or_eq_true, decide_eq_true_eq, not_or] at hmem
      simp only [List.cons_append]
      have := ih (by simpa [hasCol] using hmem.2)
      simpa [getCol, hmem.1] using this

theorem getCol_setCol_ne (r : Row) (c n : String) (v : Val) (h : n ≠ c) :
    getCol (setCol r c v) n = getCol r n := by
  unfold setCol
  split
  · exact getCol_map_update r c n v h
  · exact getCol_append_single_ne r c n v h

theorem getCol_dropCol_ne (r : Row) (c n : String) (h : n ≠ c) :
    getCol (dropCol r c) n = getCol r n := by
  have hcn : ¬ c = n := fun hc => h hc.symm
  induction r with
  | nil => rfl
  | cons p t ih =>
    by_cases hp : p.1 = c
    · have hpn : ¬ p.1 = n := fun hc => h (hc.symm.trans hp)
      simpa [dropCol, getCol, hp, hpn, hcn] using ih
    · by_cases hpn : p.1 = n
      · simp [dropCol, getCol, hp, hpn, h]
      · simpa [dropCol, getCol, hp, hpn] using ih

@[simp] theorem hasCol_dropCol_self (r : Row) (c : String) :
    hasCol (dropCol r c) c = false := by
  induction r with
  | nil => rfl
  | cons p t ih =>
    by_cases hp : p.1 = c
    · simpa [dropCol, hasCol, hp] using ih
    · simpa [dropCol, hasCol, hp] using ih

theorem hasCol_dropCol_ne (r : Row) (c n : String) (h : n ≠ c) :
    hasCol (dropCol r c) n = hasCol r n := by
  have hcn : ¬ c = n := fun hc => h hc.symm
  induction r with
  | nil => rfl
  | cons p t ih =>
    by_cases hp : p.1 = c
    · have hpn : ¬ p.1 = n := fun hc => h (hc.symm.trans hp)
      simpa [dropCol, hasCol, hp, hpn, hcn] using ih
    · by_cases hpn : p.1 = n
      · simp [dropCol, hasCol, hp, hpn, h]
      · simpa [dropCol, hasCol, hp, hpn] using ih

theorem hasCol_map_update (r : Row) (c n : String) (v : Val) (h : n ≠ c) :
    hasCol (r.map (fun p => if p.1 = c then (c, v) else p)) n = hasCol r n := by
  have hcn : ¬ c = n := fun hc => h hc.symm
  induction r with
  | nil => rfl
  | cons p t ih =>
    by_cases hp : p.1 = c
    · have hpn : ¬ p.1 = n := fun hc => h (hc.symm.trans hp)
      simp [hasCol, hp, hpn, hcn, ih]
    · by_cases hpn : p.1 = n
      · simp [hasCol, hp, hpn, hcn, h]
      · simp [hasCol, hp, hpn, ih]

theorem hasCol_append_single_ne (r : Row) (c n : String) (v : Val) (h : n ≠ c) :
    hasCol (r ++ [(c, v)]) n = hasCol r n := by
  have hcn : ¬ c = n := fun hc => h hc.symm
  induction r with
  | nil => simp [hasCol, hcn]
  | cons p t ih =>
    simp [hasCol, ih]

theorem hasCol_setCol_ne (r : Row) (c n : String) (v : Val) (h : n ≠ c) :
    hasCol (setCol r c v) n = hasCol r n := by
  unfold setCol
  split
  · exact hasCol_map_update r c n v h
  · exact hasCol_append_single_ne r c n v h

/-! ## The rank assigner (`Similarity._add_rank_column`)

`similarity.py` is not among the available sources; the rank assigner is
modelled from the spec (§4.3) and from `test__add_rank_column` in
`src/tests/test_similarity.py`.  The test ranks the *same* long-format
edge table once through a cosine-configured engine and once through a
euclidean-configured engine and asserts different ranks for the same
record (rank 1 vs rank 3 for the (3,3) self-pair), so the sort direction
must depend on the configured metric: descending for cosine, ascending
for euclidean.  The fresh uniform-random tie-break ordering drawn on
each invocation is modelled by the explicit priority draw `pri` mapping
a record's position to its priority; an injective `pri` corresponds to
the almost-sure case of distinct random keys. -/

/-- An edge record of the long-format similarity table:
`(source_id, target_id, score)` = `({id}_1, {id}_2, similarity)`. -/
structure Edge where
  src : Nat
  tgt : Nat
  score : ℚ
  deriving DecidableEq

/-- An edge record together with its assigned `rank`. -/
structure REdge where
  src : Nat
  tgt : Nat
  score : ℚ
  rank : Nat
  deriving DecidableEq

/-- Whether record `a`'s score places it strictly before record `b`
within a rank group: ascending iff `asc`. -/
def scoreBefore (asc : Bool) (a b : Edge) : Bool :=
  if asc then a.score < b.score else b.score < a.score

/-- Whether record `a` is ordered strictly before record `b` within a
rank group: by score (ascending iff `asc`), ties resolved by the drawn
priorities `pa`, `pb`. -/
def rankBefore (asc : Bool) (a b : Edge) (pa pb : Nat) : Bool :=
  scoreBefore asc a b || (a.score = b.score && pa < pb)

/-- Modelled from the spec: `Similarity._add_rank_column`, absent from
the available sources (only its tests are under `src/`).  Groups the
edge records by `source_id` and ranks each group by score — descending
under the cosine configuration, ascending under the euclidean
configuration (forced by `test__add_rank_column`, which asserts rank 1
under cosine and rank 3 under euclidean for the same record of the same
table) — breaking score ties by the per-invocation random ordering,
modelled by the priority draw `pri` over record positions.  A record's
rank is one plus the number of records of its group ordered strictly
before it. -/
def addRankColumn (similarityType : String) (pri : Nat → Nat)
    (edges : List Edge) : List REdge :=
  let asc := similarityType = "euclidean"
  edges.enum.map (fun ie =>
    { src := ie.2.src, tgt := ie.2.tgt, score := ie.2.score,
      rank := 1 + edges.enum.countP (fun je =>
        je.2.src = ie.2.src && rankBefore asc je.2 ie.2 (pri je.1) (pri ie.1)) })

/-- The rank assigned to the record with the given source and target
ids (the test's lookup `df.loc[(df.id_1 == s) & (df.id_2 == t)].rank`). -/
def rankOfTarget (ranked : List REdge) (s t : Nat) : Option Nat :=
  (ranked.find? (fun e => e.src = s && e.tgt = t)).map (fun e => e.rank)

/-- The rank-1 target of the group of source `s` (the "winner"). -/
def winnerOf (ranked : List REdge) (s : Nat) : Option Nat :=
  (ranked.find? (fun e => e.src = s && e.rank = 1)).map (fun e => e.tgt)

/-- Number of records in the group of source `s`. -/
def groupSize (edges : List Edge) (s : Nat) : Nat :=
  edges.countP (fun e2 => e2.src = s)

/-- One plus the number of group records of strictly greater score: the
1-based position of `e` in its group sorted by score descending, when
scores within the group are pairwise distinct. -/
def descPos (edges : List Edge) (e : Edge) : Nat :=
  1 + edges.countP (fun e2 => e2.src = e.src && e.score < e2.score)

/-- One plus the number of group records of strictly smaller score: the
1-based position of `e` in its group sorted by score ascending, when
scores within the group are pairwise distinct. -/
def ascPos (edges : List Edge) (e : Edge) : Nat :=
  1 + edges.countP (fun e2 => e2.src = e.src && e2.score < e.score)

/-- Scores are pairwise distinct within every source group: two
positions holding records of the same group and the same score must be
the same position. -/
def GroupwiseDistinct (edges : List Edge) : Prop :=
  ∀ p ∈ edges.enum, ∀ q ∈ edges.enum,
    p.2.src = q.2.src → p.2.score = q.2.score → p.1 = q.1

instance (edges : List Edge) : Decidable (GroupwiseDistinct edges) := by
  unfold GroupwiseDistinct
  infer_instance

/-- All ways of inserting `a` into a list (helper for enumerating
permutations by structural recursion, so that proofs can evaluate it). -/
def insertions (a : Nat) : List Nat → List (List Nat)
  | [] => [[a]]
  | b :: t => (a :: b :: t) :: (insertions a t).map (fun l => b :: l)

/-- All permutations of a list, by structural recursion. -/
def allPerms : List Nat → List (List Nat)
  | [] => [[]]
  | a :: t => (allPerms t).flatMap (insertions a)

/-- The sample space of the random tie-break ordering over `n` records:
all permutations of the priorities `0..n-1`, drawn uniformly. -/
def tieDraws (n : Nat) : List (List Nat) :=
  allPerms (List.range n)

/-- The priority function encoded by a drawn priority list. -/
def priOf (l : List Nat) : Nat → Nat :=
  fun k => l.getD k k

/-- The rank-1 target of source group `s` when `_add_rank_column` runs
with the drawn tie-break ordering `l`. -/
def winnerUnderDraw (similarityType : String) (edges : List Edge)
    (s : Nat) (l : List Nat) : Option Nat :=
  winnerOf (addRankColumn similarityType (priOf l) edges) s

/-- Number of outcomes, over five independent uniform tie-break draws,
in which all five invocations crown the same rank-1 target of group
`s`. -/
def sameWinnerCount (similarityType : String) (edges : List Edge) (s : Nat) : Nat :=
  let ds := tieDraws edges.length
  let w := winnerUnderDraw similarityType edges s
  (ds.flatMap (fun a => ds.flatMap (fun b => ds.flatMap (fun c => ds.flatMap (fun d =>
      ds.map (fun e =>
        decide (w a = w b ∧ w a = w c ∧ w a = w d ∧ w a = w e))))))).countP
    (fun x => x)

/-- Probability that five independent invocations of
`_add_rank_column` all assign rank 1 to the same target of group `s`,
under the uniform tie-break model. -/
def probSameWinner5 (similarityType : String) (edges : List Edge) (s : Nat) : ℚ :=
  (sameWinnerCount similarityType edges s : ℚ) /
    ((tieDraws edges.length).length ^ 5 : ℚ)

/-! ## The long-format converter (`Similarity._convert_to_long_format`)

Modelled from the spec (§4.2) and `test__convert_to_long_format`: the
input is a square similarity table labeled on both axes by entity id,
the output one edge record per cell. -/

/-- A similarity table labeled on both axes: row labels, column labels,
and the numeric cells, row-major. -/
structure WideTable where
  rowLabels : List String
  colLabels : List String
  cells : List (List ℚ)
  deriving DecidableEq

/-- A long-format record `({id}_1, {id}_2, similarity)` as produced by
`_convert_to_long_format`. -/
structure LongRec where
  src : String
  tgt : String
  score : ℚ
  deriving DecidableEq

/-- Modelled from the spec: `Similarity._convert_to_long_format`,
absent from the available sources.  Flattens the labeled square table
into one record per cell, row-major: for the row labeled `rl` and the
column labeled `cl`, the record `(rl, cl, value at [rl][cl])`. -/
def convertToLongFormat (w : WideTable) : List LongRec :=
  (w.rowLabels.zip w.cells).flatMap (fun rc =>
    (w.colLabels.zip rc.2).map (fun cv => ⟨rc.1, cv.1, cv.2⟩))

/-- The score the edge list stores for the pair `(s, t)`. -/
def scoreAt (recs : List LongRec) (s t : String) : ℚ :=
  match recs.find? (fun e => e.src = s && e.tgt = t) with
  | some e => e.score
  | none => 0

/-- Re-pivot an edge list into a matrix keyed by the same id pair: cell
`[rl][cl]` is the score of the first record `(rl, cl, _)`. -/
def pivotLongFormat (rowLabels colLabels : List String)
    (recs : List LongRec) : List (List ℚ) :=
  rowLabels.map (fun rl => colLabels.map (fun cl => scoreAt recs rl cl))

/-- A wide table is well-formed when its cell matrix has one row per
row label and one column per column label. -/
def WideTable.WellFormed (w : WideTable) : Prop :=
  w.cells.length = w.rowLabels.length ∧
    ∀ row ∈ w.cells, row.length = w.colLabels.length

/-! ## The similarity engine (`Similarity.__init__` and `generate`)

Modelled from the spec (§4.1, §7) and the tests
(`test__check_is_spark_data_frame`, `test__check_nulls_in_feature_columns`,
`test__check_is_numerical_data`, `test_generate`): `similarity.py` is
absent from the available sources. -/

/-- A cell of the engine's input feature table: an integer, a double
(modelled as an exact rational), a string, or null. -/
inductive Cell where
  | cint (n : Int)
  | cdouble (q : ℚ)
  | cstr (s : String)
  | cnull
  deriving DecidableEq

/-- The declared Spark data type of a column. -/
inductive DType where
  | integerType
  | doubleType
  | stringType
  deriving DecidableEq

/-- A column of the engine's input table: name, declared type, values. -/
structure SCol where
  name : String
  dtype : DType
  values : List Cell
  deriving DecidableEq

/-- The engine's input table: Spark data frames carry `isSpark := true`;
passing a pandas frame (as `test__check_is_spark_data_frame` does) is
modelled by `isSpark := false`. -/
structure SDF where
  isSpark : Bool
  cols : List SCol
  deriving DecidableEq

/-- Whether a declared column type is numeric (integer or double). -/
def DType.isNumeric : DType → Bool
  | DType.integerType => true
  | DType.doubleType => true
  | DType.stringType => false

/-- The feature columns: every column other than the identifier. -/
def featureCols (df : SDF) (indexColumn : String) : List SCol :=
  df.cols.filter (fun c => c.name ≠ indexColumn)

/-- Number of nulls in a column. -/
def nullCount (c : SCol) : Nat :=
  c.values.countP (fun v => v = Cell.cnull)

/-- The constructed engine: the validated input plus the immutable
configuration. -/
structure Similarity where
  df : SDF
  indexColumn : String
  similarityType : String
  deriving DecidableEq

/-- Construction-time failures of `Similarity.__init__`. -/
inductive CtorError where
  | notSparkDataFrame
  | nullsInColumn (column : String) (count : Nat)
  | nonNumericalColumn (column : String)
  deriving DecidableEq

/-- Modelled from the spec: `Similarity.__init__`, absent from the
available sources.  Validates, in the spec's §4.1 order and failing
fast on the first offender: the input must be a Spark data frame; every
feature (non-identifier) column must contain no nulls (the error names
the offending column and its null count); every feature column must be
of numeric (integer or double) declared type — the values themselves
are not inspected, so textually numeric strings still fail.  The metric
selector is deliberately not validated here (deferred to `generate`). -/
def mkSimilarity (df : SDF) (indexColumn : String := "recipe_id")
    (similarityType : String := "cosine") : Except CtorError Similarity :=
  if df.isSpark = false then Except.error CtorError.notSparkDataFrame
  else
    match (featureCols df indexColumn).find? (fun c => nullCount c ≠ 0) with
    | some c => Except.error (CtorError.nullsInColumn c.name (nullCount c))
    | none =>
      match (featureCols df indexColumn).find? (fun c => ¬ c.dtype.isNumeric) with
      | some c => Except.error (CtorError.nonNumericalColumn c.name)
      | none => Except.ok ⟨df, indexColumn, similarityType⟩

/-- A pairwise metric score, kept symbolic because both metrics involve
a real square root: `cosine dot nA nB` stands for
`dot / (sqrt nA * sqrt nB)` with `dot = a·b`, `nA = ‖a‖²`, `nB = ‖b‖²`,
and `euclidean ssq` stands for `sqrt ssq` with `ssq = Σ (a_k − b_k)²`.
The symbolic form determines the real value exactly; no claim inspects
a score's numeric value, only the matrix's shape and labels. -/
inductive Score where
  | cosine (dot normSqA normSqB : ℚ)
  | euclidean (sumSq : ℚ)
  deriving DecidableEq

/-- Dot product of two feature vectors. -/
def dotProd (a b : List ℚ) : ℚ :=
  ((a.zip b).map (fun p => p.1 * p.2)).sum

/-- Squared euclidean distance between two feature vectors. -/
def sumSqDiff (a b : List ℚ) : ℚ :=
  ((a.zip b).map (fun p => (p.1 - p.2) ^ 2)).sum

/-- Modelled from the spec: the pairwise metric of §4.2, applied to two
feature vectors. -/
def pairScore (similarityType : String) (a b : List ℚ) : Score :=
  if similarityType = "euclidean" then Score.euclidean (sumSqDiff a b)
  else Score.cosine (dotProd a b) (dotProd a a) (dotProd b b)

/-- Numeric reading of a cell (feature columns are validated to be
numeric and null-free before this is ever reached; the null/string
fallback value is never read on validated inputs). -/
def cellToRat : Cell → ℚ
  | Cell.cint n => (n : ℚ)
  | Cell.cdouble q => q
  | Cell.cstr _ => 0
  | Cell.cnull => 0

/-- Row count of the input table (Spark's `df.count()`). -/
def nRows (df : SDF) : Nat :=
  match df.cols with
  | [] => 0
  | c :: _ => c.values.length

/-- The entity ids: the values of the identifier column, in input row
order. -/
def indexValues (df : SDF) (indexColumn : String) : List Cell :=
  match df.cols.find? (fun c => c.name = indexColumn) with
  | some c => c.values
  | none => []

/-- The feature vector of each input row, in input row order. -/
def featureVectors (df : SDF) (indexColumn : String) : List (List ℚ) :=
  (List.range (nRows df)).map (fun i =>
    (featureCols df indexColumn).map (fun c => cellToRat (c.values.getD i Cell.cnull)))

/-- The labeled similarity table: the pairwise metric matrix with both
axes labeled by the entity ids in input row order. -/
structure LabeledTable where
  rowLabels : List Cell
  colLabels : List Cell
  cells : List (List Score)
  deriving DecidableEq

/-- An artifact returned by `generate`. -/
inductive Artifact where
  | labeledTable (t : LabeledTable)
  | rawMatrix (m : List (List Score))
  deriving DecidableEq

/-- Computation-time failure of `generate`: a value-domain error naming
the unsupported metric selector. -/
inductive GenError where
  | valueError (selector : String)
  deriving DecidableEq

/-- Modelled from the spec: `Similarity.generate`, absent from the
available sources.  For a supported selector it computes the full
pairwise metric matrix over the feature vectors and returns the
artifacts; any other selector fails with a value-domain error naming
the selector (construction deliberately lets it through).  The spec
says three artifacts (labeled table, raw matrix, metadata placeholder),
but `test_generate` unpacks the result into exactly two values
(`pd_df_similarity_cos, _ = similarity_cos.generate()`), which a
three-tuple would make fail with a `ValueError`, so the model returns
the two artifacts the repository's own test forces: the labeled table
and the raw matrix. -/
def generate (s : Similarity) : Except GenError (List Artifact) :=
  if s.similarityType = "cosine" ∨ s.similarityType = "euclidean" then
    let vs := featureVectors s.df s.indexColumn
    let cells := vs.map (fun a => vs.map (fun b => pairScore s.similarityType a b))
    Except.ok [Artifact.labeledTable
        ⟨indexValues s.df s.indexColumn, indexValues s.df s.indexColumn, cells⟩,
      Artifact.rawMatrix cells]
  else Except.error (GenError.valueError s.similarityType)

/-! ## The preprocessing pipeline (`src/preprocess.py`)

Embedded directly from the source.  Spark's lazy column expressions
become eager row transformations; `f.rand()` (the random ordering of
`_remove_duplicate_indexes`) is modelled by an explicit priority draw
over row positions, injective in the almost-sure case of distinct
random keys. -/

/-- The `columns` constructor argument of `Preprocess`: the string
`'all'` or an explicit list (`_check_is_list` admits exactly these two
shapes, so the model makes them an inductive). -/
inductive ColumnsArg where
  | all
  | explicit (columns : List String)
  deriving DecidableEq

/-- Apply a string transformation to a cell the way Spark column
functions (`regexp_replace`, `lower`, the `prep_time` udf) do: strings
are transformed, null propagates to null.  (Integer cells do not occur
in the columns these stages touch.) -/
def mapStr (f : String → String) : Val → Val
  | Val.vstr s => Val.vstr (f s)
  | Val.vint n => Val.vint n
  | Val.vnull => Val.vnull

/-- `df.withColumn(c, f(f.col(c)))` for a string transformation `f`. -/
def withColumnStr (df : DFrame) (c : String) (f : String → String) : DFrame :=
  df.map (fun r => setCol r c (mapStr f (getCol r c)))

/-- `Preprocess._convert_column_argument`: `'all'` becomes the list of
every column of `df_labels` except the index column. -/
def convertColumnArgument (df : DFrame) (indexColumn : String) :
    ColumnsArg → List String
  | ColumnsArg.all => (dfCols df).filter (fun c => c ≠ indexColumn)
  | ColumnsArg.explicit cs => cs

/-- `Preprocess._remove_duplicate_indexes`: partition the rows by the
index column, order each partition by a fresh random key (the priority
draw `pri` over row positions), and keep the first row of each
partition — i.e. the row whose priority is strictly smallest among the
rows sharing its index value. -/
def removeDuplicateIndexes (indexColumn : String) (pri : Nat → Nat)
    (df : DFrame) : DFrame :=
  (df.enum.filter (fun p =>
    df.enum.all (fun q =>
      q.1 = p.1 || getCol q.2 indexColumn ≠ getCol p.2 indexColumn ||
        pri p.1 < pri q.1))).map (fun p => p.2)

/-- `Preprocess._check_nulls_in_index_column`: the number of rows whose
index column is null. -/
def indexNullCount (indexColumn : String) (df : DFrame) : Nat :=
  df.countP (fun r => getCol r indexColumn = Val.vnull)

/-- `Preprocess._check_nulls_in_attribute_columns`: the first
non-index column whose non-null row count differs from the row count,
if any. -/
def firstNullAttributeColumn (indexColumn : String) (df : DFrame) :
    Option String :=
  ((dfCols df).filter (fun c => c ≠ indexColumn)).find? (fun c =>
    df.countP (fun r => getCol r c ≠ Val.vnull) ≠ df.length)

/-- Construction-time failures of `Preprocess.__init__` (the
`_check_is_spark_data_frame` and `_check_is_list` assertions are
type-level in this model: `DFrame` is the Spark frame and `ColumnsArg`
is list-or-`'all'` by construction). -/
inductive PErr where
  | nullsInIndexColumn (count : Nat)
  | nullsInColumn (column : String)
  deriving DecidableEq

/-- The state held by a constructed `Preprocess` object: the
de-duplicated table, the concrete column list, the index column. -/
structure PState where
  df : DFrame
  columns : List String
  indexColumn : String
  deriving DecidableEq

/-- `Preprocess.__init__`, in source order: convert the column
argument, check the index column for nulls, remove duplicate index
values (keeping one row per value, chosen by the random ordering
`pri`), then check the attribute columns of the de-duplicated table
for nulls. -/
def mkPreprocess (df : DFrame) (columns : ColumnsArg)
    (indexColumn : String) (pri : Nat → Nat) : Except PErr PState :=
  let cols := convertColumnArgument df indexColumn columns
  if indexNullCount indexColumn df ≠ 0 then
    Except.error (PErr.nullsInIndexColumn (indexNullCount indexColumn df))
  else
    let df2 := removeDuplicateIndexes indexColumn pri df
    match firstNullAttributeColumn indexColumn df2 with
    | some c => Except.error (PErr.nullsInColumn c)
    | none => Except.ok ⟨df2, cols, indexColumn⟩

/-- `Preprocess._remove_columns`: select the index column followed by
the configured columns.  (In the source the `self.columns == 'all'`
branch is dead code: `_convert_column_argument` has already replaced
`'all'` by a list during `__init__`, and a list never equals the
string `'all'`, so the select always runs.) -/
def removeColumns (indexColumn : String) (columns : List String)
    (df : DFrame) : DFrame :=
  df.map (selectCols (indexColumn :: columns))

/-- The five country-label rectifications of
`_rectify_country_labels`, in source order.  The regular expressions
involved are literal strings (the backslashes escape the parentheses),
so `regexp_replace` is replace-all-occurrences of a literal. -/
def countryPatterns : List (String × String) :=
  [("United States of America (USA)", "United States"),
   ("Israel and the Occupied Territories", "Israel"),
   ("Korea, Republic of (South Korea)", "South Korea"),
   ("Korea, Democratic Republic of (North Korea)", "South Korea"),
   ("Great Britain", "United Kingdom")]

/-- Replace every (non-overlapping, leftmost-first) occurrence of
`pat` in the list by `rep`; the fuel argument (instantiated with the
list length, which bounds the number of steps) keeps the recursion
structural so that proofs can evaluate it.  Matches Python/Spark
replace-all semantics for a non-empty literal pattern. -/
def replaceListAux (pat rep : List Char) : Nat → List Char → List Char
  | 0, l => l
  | _ + 1, [] => []
  | fuel + 1, a :: t =>
    if pat ≠ [] ∧ pat.isPrefixOf (a :: t) then
      rep ++ replaceListAux pat rep fuel ((a :: t).drop pat.length)
    else a :: replaceListAux pat rep fuel t

/-- Replace every occurrence of the literal `pat` in `s` by `rep`
(Spark's `regexp_replace` with a literal pattern). -/
def strReplace (s pat rep : String) : String :=
  String.mk (replaceListAux pat.toList rep.toList s.toList.length s.toList)

/-- Lower-case a string character-wise (Spark's `f.lower`). -/
def strLower (s : String) : String :=
  String.mk (s.toList.map Char.toLower)

/-- Split on a separator character. -/
def splitOnChar (sep : Char) : List Char → List (List Char)
  | [] => [[]]
  | a :: t =>
    if a = sep then [] :: splitOnChar sep t
    else
      match splitOnChar sep t with
      | [] => [[a]]
      | h :: r => (a :: h) :: r

/-- The last `-`-separated component of a string
(Python's `x.split('-')[-1]`). -/
def strSplitLast (s : String) (sep : Char) : String :=
  String.mk ((splitOnChar sep s.toList).getLastD [])

/-- Whether `p` is an infix of `l`. -/
def listInfixOf (p : List Char) : List Char → Bool
  | [] => p.isEmpty
  | a :: t => p.isPrefixOf (a :: t) || listInfixOf p t

/-- Whether `pat` occurs inside `s` (Python's `in` on strings). -/
def strContains (s pat : String) : Bool :=
  listInfixOf pat.toList s.toList

/-- `Preprocess._rectify_country_labels`: on every configured column
whose name contains `country`, apply the five label rectifications. -/
def rectifyCountryLabels (columns : List String) (df : DFrame) : DFrame :=
  (columns.filter (fun c => strContains c "country")).foldl
    (fun acc c => countryPatterns.foldl
      (fun acc2 pr => withColumnStr acc2 c (fun s => strReplace s pr.1 pr.2)) acc)
    df

/-- `Preprocess._replace_whitespaces_with_underscores`: on every column
of the frame except the index column. -/
def replaceWhitespacesWithUnderscores (indexColumn : String)
    (df : DFrame) : DFrame :=
  ((dfCols df).filter (fun c => c ≠ indexColumn)).foldl
    (fun acc c => withColumnStr acc c (fun s => strReplace s " " "_")) df

/-- `Preprocess._convert_columns_to_lower_case`: on every column of the
frame except the index column. -/
def convertColumnsToLowerCase (indexColumn : String) (df : DFrame) : DFrame :=
  ((dfCols df).filter (fun c => c ≠ indexColumn)).foldl
    (fun acc c => withColumnStr acc c (fun s => strLower s)) df

/-- `Preprocess._convert_nas`: replace `#n/a` by
`column_name + "_not_applicable"` on every column except the index
column. -/
def convertNas (indexColumn : String) (df : DFrame) : DFrame :=
  ((dfCols df).filter (fun c => c ≠ indexColumn)).foldl
    (fun acc c => withColumnStr acc c
      (fun s => strReplace s "#n/a" (c ++ "_not_applicable"))) df

/-- The `prep_time` udf: keep the upper bound of a range,
`x.split('-')[-1]`. -/
def prepTimeUpperBound (s : String) : String :=
  strSplitLast s '-' 

/-- `Preprocess._convert_prep_time`: when `prep_time` is a configured
column, copy it to `prep_time_copy`, overwrite `prep_time` with the
udf applied to the copy, and drop the copy. -/
def convertPrepTime (columns : List String) (df : DFrame) : DFrame :=
  if "prep_time" ∈ columns then
    let dfCopy := df.map (fun r => setCol r "prep_time_copy" (getCol r "prep_time"))
    let dfConv := dfCopy.map (fun r =>
      setCol r "prep_time" (mapStr prepTimeUpperBound (getCol r "prep_time_copy")))
    dfConv.map (fun r => dropCol r "prep_time_copy")
  else df

/-- The distinct values of column `c` (Spark's
`df.select(col).distinct().collect()`; collection order is not
semantically meaningful and the model uses `List.dedup`). -/
def labelsOf (df : DFrame) (c : String) : List Val :=
  (df.map (fun r => getCol r c)).dedup

/-- The string carried by a label.  (Python builds `col+'_'+label` and
would raise a `TypeError` on a non-string label; the claims about
one-hot encoding therefore assume string-valued configured columns,
and the default is never read there.) -/
def valStr : Val → String
  | Val.vstr s => s
  | Val.vint _ => ""
  | Val.vnull => ""

/-- The name of the indicator column for value `l` of column `c`. -/
def oneHotName (c : String) (l : Val) : String :=
  c ++ "_" ++ valStr l

/-- All indicator-column names the one-hot stage creates on `df` for
the configured columns. -/
def oneHotNames (df : DFrame) (columns : List String) : List String :=
  columns.flatMap (fun c => (labelsOf df c).map (oneHotName c))

/-- `f.when(f.col(col) == label, 1).otherwise(0)`: Spark's equality is
null-propagating, so a null on either side lands in the `otherwise`
branch. -/
def oneHotIndicator (v l : Val) : Val :=
  if v = Val.vnull ∨ l = Val.vnull then Val.vint 0
  else if v = l then Val.vint 1 else Val.vint 0

/-- `Preprocess._convert_to_one_hot`: for each configured column, one
indicator column per distinct value of that column (the distinct values
taken from the stage's input frame, as in the source), then drop the
column. -/
def convertToOneHot (columns : List String) (df : DFrame) : DFrame :=
  columns.foldl (fun acc c =>
    ((labelsOf df c).foldl (fun a l =>
      a.map (fun r => setCol r (oneHotName c l) (oneHotIndicator (getCol r c) l))) acc).map
      (fun r => dropCol r c)) df

/-- The pipeline of `Preprocess.preprocess` up to (excluding) the
one-hot stage: remove columns, rectify country labels, replace
whitespaces, lower-case, convert `#n/a`, convert `prep_time`. -/
def preOneHot (st : PState) : DFrame :=
  convertPrepTime st.columns
    (convertNas st.indexColumn
      (convertColumnsToLowerCase st.indexColumn
        (replaceWhitespacesWithUnderscores st.indexColumn
          (rectifyCountryLabels st.columns
            (removeColumns st.indexColumn st.columns st.df)))))

/-- `Preprocess.preprocess`: the full transformation pipeline. -/
def preprocess (st : PState) : DFrame :=
  convertToOneHot st.columns (preOneHot st)

/-! ## Helper lemmas -/

theorem mem_enum_inj {α : Type} {l : List α} {i : Nat} {a b : α}
    (ha : (i, a) ∈ l.enum) (hb : (i, b) ∈ l.enum) : a = b := by
  rw [List.mk_mem_enum_iff_getElem?] at ha hb
  rw [ha] at hb
  exact Option.some.inj hb

theorem nodup_enum {α : Type} (l : List α) : l.enum.Nodup :=
  (List.nodup_enum_map_fst l).of_map

/-- A list with a member satisfying `p`, unique among its members,
counts `p` exactly once, provided the list has no duplicates. -/
theorem countP_eq_one_of_unique {α : Type} (l : List α) (p : α → Bool) (a : α)
    (hnd : l.Nodup) (ha : a ∈ l) (hpa : p a = true)
    (hu : ∀ b ∈ l, p b = true → b = a) : l.countP p = 1 := by
  rw [List.countP_eq_length_filter]
  have haf : a ∈ l.filter p := List.mem_filter.mpr ⟨ha, hpa⟩
  have hndf : (l.filter p).Nodup := hnd.filter p
  have hall : ∀ b ∈ l.filter p, b = a := by
    intro b hb
    rcases List.mem_filter.mp hb with ⟨hbl, hbp⟩
    exact hu b hbl hbp
  match hf : l.filter p with
  | [] => rw [hf] at haf; simp at haf
  | b :: t =>
    rw [hf] at hndf hall
    have hb : b = a := hall b (List.mem_cons_self b t)
    have ht : t = [] := by
      cases t with
      | nil => rfl
      | cons x t' =>
        exfalso
        have hx : x = a := hall x (List.mem_cons_of_mem b (List.mem_cons_self x t'))
        have hbt : b ∉ x :: t' := (List.nodup_cons.mp hndf).1
        exact hbt (by rw [hb, ← hx]; exact List.mem_cons_self x t')
    simp [ht]

/-- Any nonempty list has a member minimizing a `Nat`-valued key. -/
theorem exists_min_key {α : Type} (l : List α) (f : α → Nat) (h : l ≠ []) :
    ∃ m ∈ l, ∀ x ∈ l, f m ≤ f x := by
  induction l with
  | nil => exact absurd rfl h
  | cons a t ih =>
    match t with
    | [] => exact ⟨a, List.mem_cons_self a [], by intro x hx; simp at hx; rw [hx]⟩
    | b :: t' =>
      rcases ih (by simp) with ⟨m, hm, hmin⟩
      by_cases hle : f a ≤ f m
      · refine ⟨a, List.mem_cons_self a (b :: t'), ?_⟩
        intro x hx
        rcases List.mem_cons.mp hx with hx | hx
        · rw [hx]
        · exact hle.trans (hmin x hx)
      · refine ⟨m, List.mem_cons_of_mem a hm, ?_⟩
        intro x hx
        rcases List.mem_cons.mp hx with hx | hx
        · rw [hx]; exact (Nat.not_le.mp hle).le
        · exact hmin x hx

/-- Folding a list of per-element data-frame maps equals mapping the
folded row transformation over the frame (the per-column `withColumn`
loops of the source are folds of maps). -/
theorem foldl_map_eq_map_foldl {β : Type} (g : β → Row → Row) :
    ∀ (l : List β) (df : DFrame),
      l.foldl (fun acc b => acc.map (g b)) df =
        df.map (fun r => l.foldl (fun r b => g b r) r) := by
  intro l
  induction l with
  | nil => intro df; simp
  | cons b t ih =>
    intro df
    simp only [List.foldl_cons]
    rw [ih (df.map (g b)), List.map_map]
    rfl

/-- Under groupwise-distinct scores the random tie-break never fires:
the rank assigned by `_add_rank_column` is the (direction-dependent)
1-based sorted position of the record in its group, independently of
the priority draw. -/
theorem addRankColumn_eq_of_distinct (st : String) (pri : Nat → Nat)
    (edges : List Edge) (hd : GroupwiseDistinct edges) :
    addRankColumn st pri edges = edges.map (fun e =>
      { src := e.src, tgt := e.tgt, score := e.score,
        rank := if st = "euclidean" then ascPos edges e else descPos edges e }) := by
  unfold addRankColumn
  simp only []
  have hcnt : ∀ ie ∈ edges.enum,
      edges.enum.countP (fun je =>
        je.2.src = ie.2.src &&
          rankBefore (decide (st = "euclidean")) je.2 ie.2 (pri je.1) (pri ie.1)) =
      edges.countP (fun e2 =>
        e2.src = ie.2.src && scoreBefore (decide (st = "euclidean")) e2 ie.2) := by
    intro ie hie
    have hsnd :
        edges.countP (fun e2 =>
          e2.src = ie.2.src && scoreBefore (decide (st = "euclidean")) e2 ie.2) =
        edges.enum.countP (fun je =>
          je.2.src = ie.2.src && scoreBefore (decide (st = "euclidean")) je.2 ie.2) := by
      conv_lhs => rw [← List.enum_map_snd edges]
      rw [List.countP_map]
      rfl
    rw [hsnd]
    apply List.countP_congr
    intro je hje
    simp only [Bool.and_eq_true, decide_eq_true_eq]
    constructor
    · rintro ⟨hsrc, hrb⟩
      refine ⟨hsrc, ?_⟩
      have hrb' : scoreBefore (decide (st = "euclidean")) je.2 ie.2 = true ∨
          (je.2.score = ie.2.score ∧ pri je.1 < pri ie.1) := by
        simpa [rankBefore] using hrb
      rcases hrb' with hsb | ⟨hseq, hlt⟩
      · exact hsb
      · have hji : je.1 = ie.1 := hd je hje ie hie hsrc hseq
        rw [hji] at hlt
        simp at hlt
    · rintro ⟨hsrc, hsb⟩
      exact ⟨hsrc, by simp [rankBefore, hsb]⟩
  apply List.ext_getElem
  · simp
  · intro i h1 h2
    have hlen : i < edges.length := by simpa using h2
    have hie : (i, edges[i]) ∈ edges.enum := by
      rw [List.mk_mem_enum_iff_getElem?]
      simp [hlen]
    have hc := hcnt (i, edges[i]) hie
    simp only at hc
    simp only [List.getElem_map, List.getElem_enum]
    rw [hc]
    by_cases hst : st = "euclidean"
    · simp [hst, ascPos, scoreBefore]
    · simp [hst, descPos, scoreBefore]

/-- Within a group, the records scoring above `e`, those scoring below
`e`, and those scoring equal to `e` partition the group. -/
theorem countP_partition_trichotomy (l : List Edge) (e : Edge) :
    l.countP (fun e2 => e2.src = e.src && e.score < e2.score) +
      l.countP (fun e2 => e2.src = e.src && e2.score < e.score) +
      l.countP (fun e2 => e2.src = e.src && e2.score = e.score) =
    groupSize l e.src := by
  induction l with
  | nil => rfl
  | cons a t ih =>
    simp only [groupSize, List.countP_cons] at ih ⊢
    by_cases hsrc : a.src = e.src
    · rcases lt_trichotomy e.score a.score with h | h | h
      · have h1 : ¬ a.score < e.score := not_lt.mpr h.le
        have h2 : ¬ a.score = e.score := h.ne'
        simp [hsrc, h, h1, h2]
        omega
      · have h1 : ¬ e.score < a.score := by rw [h]; exact lt_irrefl _
        have h2 : ¬ a.score < e.score := by rw [h]; exact lt_irrefl _
        simp [hsrc, h.symm, h1, h2]
        omega
      · have h1 : ¬ e.score < a.score := not_lt.mpr h.le
        have h2 : ¬ a.score = e.score := h.ne
        simp [hsrc, h, h1, h2]
        omega
    · simp [hsrc]
      omega

/-- Under groupwise-distinct scores, exactly one record of `e`'s group
scores equal to `e` (namely `e`'s own position). -/
theorem countP_same_score_eq_one (edges : List Edge) (hd : GroupwiseDistinct edges)
    {i : Nat} {e : Edge} (hie : (i, e) ∈ edges.enum) :
    edges.countP (fun e2 => e2.src = e.src && e2.score = e.score) = 1 := by
  have hsnd : edges.countP (fun e2 => e2.src = e.src && e2.score = e.score) =
      edges.enum.countP (fun je => je.2.src = e.src && je.2.score = e.score) := by
    conv_lhs => rw [← List.enum_map_snd edges]
    rw [List.countP_map]
    rfl
  rw [hsnd]
  apply countP_eq_one_of_unique _ _ (i, e) (nodup_enum edges) hie
  · simp
  · rintro ⟨j, e2⟩ hje hp
    simp only [Bool.and_eq_true, decide_eq_true_eq] at hp
    have hji : j = i := hd (j, e2) hje (i, e) hie hp.1 hp.2
    subst hji
    exact congrArg (Prod.mk j) (mem_enum_inj hje hie)

theorem mem_enum_of_mem {α : Type} {l : List α} {e : α} (h : e ∈ l) :
    ∃ i, (i, e) ∈ l.enum := by
  rcases List.getElem_of_mem h with ⟨i, hi, he⟩
  refine ⟨i, ?_⟩
  rw [List.mk_mem_enum_iff_getElem?, List.getElem?_eq_getElem hi, he]

/-- C1 (amended): under groupwise-distinct scores, the cosine-configured
and the euclidean-configured rank assignments of the same edge table
reverse each other group-wise — the two ranks of each record sum to its
group size plus one. -/
theorem claim_C1_metric_dependent_rank_reversal (edges : List Edge)
    (pri pri' : Nat → Nat) (hd : GroupwiseDistinct edges) :
    ∀ p ∈ (addRankColumn "cosine" pri edges).zip (addRankColumn "euclidean" pri' edges),
      p.1.rank + p.2.rank = groupSize edges p.1.src + 1 := by
  rw [addRankColumn_eq_of_distinct _ _ _ hd, addRankColumn_eq_of_distinct _ _ _ hd,
    List.zip_map']
  intro p hp
  rcases List.mem_map.mp hp with ⟨e, he, rfl⟩
  have hco : ¬ ("cosine" : String) = "euclidean" := by decide
  simp only [hco, if_false, eq_self_iff_true, if_true, ite_false, ite_true]
  rcases mem_enum_of_mem he with ⟨i, hie⟩
  have h3 := countP_same_score_eq_one edges hd hie
  have h2 := countP_partition_trichotomy edges e
  unfold descPos ascPos
  omega

/-! ## Claim C1 -/

/-- An edge table with distinct scores per group, shaped like the
`similarities_long.csv` fixture of `test__add_rank_column`: in group 1
the self-pair scores highest and the pair (1,3) lowest; in group 3 the
self-pair scores highest. -/
def tblFix : List Edge :=
  [⟨1, 1, 10⟩, ⟨1, 2, 8⟩, ⟨1, 3, 5⟩, ⟨3, 1, 2⟩, ⟨3, 2, 4⟩, ⟨3, 3, 7⟩]

/-- An edge table whose single group holds two edges sharing the
maximum score (the `similarities_long_dupes.csv` fixture shape). -/
def tblDup : List Edge := [⟨1, 4, 9⟩, ⟨1, 5, 9⟩]

/-- C1 counterexample: on a concrete edge table with pairwise distinct
scores per group, the model — which reproduces every rank the
repository's own test asserts (rank 1 for (1,1), rank 3 for (1,3) and
rank 1 for (3,3) under cosine, rank 3 for (3,3) under euclidean) —
assigns different ranks to the same record under the two metric
configurations, so `_add_rank_column` does not order by descending raw
score under both configurations and the rank assignment does depend on
the configured metric. -/
theorem claim_C1_counterexample :
    GroupwiseDistinct tblFix ∧
    rankOfTarget (addRankColumn "cosine" id tblFix) 1 1 = some 1 ∧
    rankOfTarget (addRankColumn "cosine" id tblFix) 1 3 = some 3 ∧
    rankOfTarget (addRankColumn "cosine" id tblFix) 3 3 = some 1 ∧
    rankOfTarget (addRankColumn "euclidean" id tblFix) 3 3 = some 3 ∧
    addRankColumn "cosine" id tblFix ≠ addRankColumn "euclidean" id tblFix := by
  decide

/-- C1 witness: the reversal theorem applied to the concrete table
`tblFix` at its first record, whose cosine rank 1 and euclidean rank 3
sum to its group size 3 plus one. -/
theorem claim_C1_witness :
    ((⟨1, 1, 10, 1⟩, ⟨1, 1, 10, 3⟩) : REdge × REdge).1.rank +
      ((⟨1, 1, 10, 1⟩, ⟨1, 1, 10, 3⟩) : REdge × REdge).2.rank =
      groupSize tblFix ((⟨1, 1, 10, 1⟩, ⟨1, 1, 10, 3⟩) : REdge × REdge).1.src + 1 :=
  claim_C1_metric_dependent_rank_reversal tblFix id id (by decide)
    (⟨1, 1, 10, 1⟩, ⟨1, 1, 10, 3⟩) (by decide)

/-! ## Claim C4 -/

/-- C4 (amended): on an edge table whose scores are pairwise distinct
within each source group, `_add_rank_column` is deterministic — every
priority draw yields the same rank assignment — and the rank of each
record is its 1-based position in its group sorted by score descending
under the cosine configuration and ascending under the euclidean
configuration. -/
theorem claim_C4_deterministic_rank_of_distinct (st : String)
    (pri pri' : Nat → Nat) (edges : List Edge) (hd : GroupwiseDistinct edges) :
    addRankColumn st pri edges = addRankColumn st pri' edges ∧
    addRankColumn st pri edges = edges.map (fun e =>
      { src := e.src, tgt := e.tgt, score := e.score,
        rank := if st = "euclidean" then ascPos edges e else descPos edges e }) :=
  ⟨by rw [addRankColumn_eq_of_distinct st pri edges hd,
      addRankColumn_eq_of_distinct st pri' edges hd],
   addRankColumn_eq_of_distinct st pri edges hd⟩

/-- C4 counterexample: under the euclidean configuration a concrete
two-record group with distinct scores ranks its higher-scoring record
2, not at its descending-sort position 1, so the rank assignment is not
"the 1..group_size position when the group is sorted by score
descending" for every engine configuration. -/
theorem claim_C4_counterexample :
    GroupwiseDistinct [⟨1, 2, 5⟩, ⟨1, 3, 7⟩] ∧
    rankOfTarget (addRankColumn "euclidean" id [⟨1, 2, 5⟩, ⟨1, 3, 7⟩]) 1 3 = some 2 ∧
    descPos [⟨1, 2, 5⟩, ⟨1, 3, 7⟩] ⟨1, 3, 7⟩ = 1 := by
  decide

/-- C4 witness: the determinism theorem applied to `tblFix` under the
cosine configuration with two different priority draws. -/
theorem claim_C4_witness :
    addRankColumn "cosine" id tblFix = addRankColumn "cosine" (fun k => 9 - k) tblFix ∧
    addRankColumn "cosine" id tblFix = tblFix.map (fun e =>
      { src := e.src, tgt := e.tgt, score := e.score,
        rank := if ("cosine" : String) = "euclidean" then ascPos tblFix e
          else descPos tblFix e }) :=
  claim_C4_deterministic_rank_of_distinct "cosine" id (fun k => 9 - k) tblFix (by decide)

/-! ## Claim C3 -/

/-- C3: on a concrete edge table whose source-1 group holds two edges
sharing the maximum score, the rank-1 target varies with the tie-break
draw, and the probability that five independent uniformly drawn
invocations of `_add_rank_column` all crown the same rank-1 target is
1/16, strictly less than 1. -/
theorem claim_C3_tie_break_not_always_same_winner :
    (tblDup.countP (fun e => e.src = 1 && e.score = 9) ≥ 2 ∧
      ∀ e ∈ tblDup, e.src = 1 → e.score ≤ 9) ∧
    winnerUnderDraw "cosine" tblDup 1 [0, 1] ≠ winnerUnderDraw "cosine" tblDup 1 [1, 0] ∧
    probSameWinner5 "cosine" tblDup 1 < 1 := by
  refine ⟨⟨by decide, by decide⟩, by decide, ?_⟩
  unfold probSameWinner5
  have h1 : sameWinnerCount "cosine" tblDup 1 = 2 := by decide
  have h2 : (tieDraws tblDup.length).length = 2 := by decide
  rw [h1, h2]
  norm_num

/-! ## Claim C5 -/

/-- Looking up a source id that no record of the leading block carries
skips the block. -/
theorem scoreAt_append_of_src_ne (block rest : List LongRec) (s t : String)
    (h : ∀ e ∈ block, e.src ≠ s) :
    scoreAt (block ++ rest) s t = scoreAt rest s t := by
  unfold scoreAt
  rw [List.find?_append]
  have hnone : block.find? (fun e => e.src = s && e.tgt = t) = none := by
    rw [List.find?_eq_none]
    intro e he hp
    simp only [Bool.and_eq_true, decide_eq_true_eq] at hp
    exact h e he hp.1
  rw [hnone, Option.none_or]

/-- Pivoting the block of row `rl` recovers that row's cells, whatever
records follow the block. -/
theorem pivot_block_eq (rl : String) :
    ∀ (cls : List String) (row : List ℚ) (rest : List LongRec),
      cls.Nodup → row.length = cls.length →
      cls.map (fun cl => scoreAt
          (((cls.zip row).map (fun cv => (⟨rl, cv.1, cv.2⟩ : LongRec))) ++ rest) rl cl) =
        row := by
  intro cls
  induction cls with
  | nil =>
    intro row rest _ hlen
    cases row with
    | nil => rfl
    | cons v r => simp at hlen
  | cons cl cls' ih =>
    intro row rest hnd hlen
    cases row with
    | nil => simp at hlen
    | cons v row' =>
      simp only [List.zip_cons_cons, List.map_cons, List.cons_append]
      have hcl : cl ∉ cls' := (List.nodup_cons.mp hnd).1
      have hnd' : cls'.Nodup := (List.nodup_cons.mp hnd).2
      congr 1
      · simp [scoreAt]
      · have hstep : ∀ cl' ∈ cls',
            scoreAt ((⟨rl, cl, v⟩ : LongRec) ::
              (((cls'.zip row').map (fun cv => (⟨rl, cv.1, cv.2⟩ : LongRec))) ++ rest)) rl cl' =
            scoreAt (((cls'.zip row').map (fun cv => (⟨rl, cv.1, cv.2⟩ : LongRec))) ++ rest) rl cl' := by
          intro cl' hcl'
          have hne : ¬ cl = cl' := fun h => hcl (h ▸ hcl')
          simp [scoreAt, hne]
        rw [List.map_congr_left hstep]
        exact ih row' rest hnd' (by simpa using hlen)

/-- Every record of the block of row `rl` carries source id `rl`. -/
theorem block_src_eq (rl : String) (cls : List String) (row : List ℚ) :
    ∀ e ∈ (cls.zip row).map (fun cv => (⟨rl, cv.1, cv.2⟩ : LongRec)), e.src = rl := by
  intro e he
  rcases List.mem_map.mp he with ⟨cv, _, rfl⟩
  rfl

/-- Re-pivoting the flattened edge list recovers the cell matrix. -/
theorem pivot_convert_aux (cls : List String) (hcnd : cls.Nodup) :
    ∀ (rls : List String) (cells : List (List ℚ)),
      rls.Nodup → cells.length = rls.length →
      (∀ row ∈ cells, row.length = cls.length) →
      rls.map (fun rl => cls.map (fun cl => scoreAt
          ((rls.zip cells).flatMap (fun rc =>
            (cls.zip rc.2).map (fun cv => (⟨rc.1, cv.1, cv.2⟩ : LongRec)))) rl cl)) =
        cells := by
  intro rls
  induction rls with
  | nil =>
    intro cells _ hlen _
    cases cells with
    | nil => rfl
    | cons r cs => simp at hlen
  | cons rl rls' ih =>
    intro cells hnd hlen hrows
    cases cells with
    | nil => simp at hlen
    | cons row cells' =>
      have hrl : rl ∉ rls' := (List.nodup_cons.mp hnd).1
      have hnd' : rls'.Nodup := (List.nodup_cons.mp hnd).2
      have hrow : row.length = cls.length := hrows row (List.mem_cons_self row cells')
      have hrows' : ∀ r ∈ cells', r.length = cls.length :=
        fun r hr => hrows r (List.mem_cons_of_mem row hr)
      simp only [List.zip_cons_cons, List.flatMap_cons, List.map_cons]
      congr 1
      · exact pivot_block_eq rl cls row _ hcnd hrow
      · have hskip : ∀ rl' ∈ rls',
            (fun rl' => cls.map (fun cl => scoreAt
              (((cls.zip row).map (fun cv => (⟨rl, cv.1, cv.2⟩ : LongRec))) ++
                (rls'.zip cells').flatMap (fun rc =>
                  (cls.zip rc.2).map (fun cv => (⟨rc.1, cv.1, cv.2⟩ : LongRec)))) rl' cl)) rl' =
            (fun rl' => cls.map (fun cl => scoreAt
              ((rls'.zip cells').flatMap (fun rc =>
                (cls.zip rc.2).map (fun cv => (⟨rc.1, cv.1, cv.2⟩ : LongRec)))) rl' cl)) rl' := by
          intro rl' hrl'
          have hne : ∀ e ∈ (cls.zip row).map (fun cv => (⟨rl, cv.1, cv.2⟩ : LongRec)),
              e.src ≠ rl' := by
            intro e he
            rw [block_src_eq rl cls row e he]
            exact fun h => hrl (h ▸ hrl')
          exact List.map_congr_left
            (fun cl _ => scoreAt_append_of_src_ne _ _ _ _ hne)
        rw [List.map_congr_left hskip]
        exact ih cells' hnd' (by simpa using hlen) hrows'

/-- The flattened edge list has exactly one record per cell. -/
theorem convert_length_aux (cls : List String) :
    ∀ (rls : List String) (cells : List (List ℚ)),
      cells.length = rls.length →
      (∀ row ∈ cells, row.length = cls.length) →
      ((rls.zip cells).flatMap (fun rc =>
        (cls.zip rc.2).map (fun cv => (⟨rc.1, cv.1, cv.2⟩ : LongRec)))).length =
        rls.length * cls.length := by
  intro rls
  induction rls with
  | nil =>
    intro cells hlen _
    cases cells with
    | nil => simp
    | cons r cs => simp at hlen
  | cons rl rls' ih =>
    intro cells hlen hrows
    cases cells with
    | nil => simp at hlen
    | cons row cells' =>
      have hrow : row.length = cls.length := hrows row (List.mem_cons_self row cells')
      simp only [List.zip_cons_cons, List.flatMap_cons, List.length_append,
        List.length_map, List.length_zip, hrow, Nat.min_self, List.length_cons]
      rw [ih cells' (by simpa using hlen) (fun r hr => hrows r (List.mem_cons_of_mem row hr))]
      ring

/-- The id pairs of the block of row `rl` enumerate the column labels. -/
theorem block_pairs_eq (rl : String) :
    ∀ (cls : List String) (row : List ℚ), row.length = cls.length →
      ((cls.zip row).map (fun cv => (⟨rl, cv.1, cv.2⟩ : LongRec))).map
          (fun e => (e.src, e.tgt)) =
        cls.map (fun cl => (rl, cl)) := by
  intro cls
  induction cls with
  | nil =>
    intro row hlen
    cases row with
    | nil => rfl
    | cons v r => simp at hlen
  | cons cl cls' ih =>
    intro row hlen
    cases row with
    | nil => simp at hlen
    | cons v row' =>
      simp only [List.zip_cons_cons, List.map_cons]
      rw [ih row' (by simpa using hlen)]

/-- The id pairs of the flattened edge list enumerate every (row label,
column label) pair, in row-major order. -/
theorem convert_pairs_aux (cls : List String) :
    ∀ (rls : List String) (cells : List (List ℚ)),
      cells.length = rls.length →
      (∀ row ∈ cells, row.length = cls.length) →
      ((rls.zip cells).flatMap (fun rc =>
        (cls.zip rc.2).map (fun cv => (⟨rc.1, cv.1, cv.2⟩ : LongRec)))).map
          (fun e => (e.src, e.tgt)) =
        rls.flatMap (fun rl => cls.map (fun cl => (rl, cl))) := by
  intro rls
  induction rls with
  | nil =>
    intro cells hlen _
    cases cells with
    | nil => rfl
    | cons r cs => simp at hlen
  | cons rl rls' ih =>
    intro cells hlen hrows
    cases cells with
    | nil => simp at hlen
    | cons row cells' =>
      have hrow : row.length = cls.length := hrows row (List.mem_cons_self row cells')
      simp only [List.zip_cons_cons, List.flatMap_cons, List.map_append]
      rw [block_pairs_eq rl cls row hrow,
        ih cells' (by simpa using hlen) (fun r hr => hrows r (List.mem_cons_of_mem row hr))]

/-- C5: for a well-formed wide similarity table with distinct row and
column labels, `_convert_to_long_format` is a bijection between matrix
cells and edge records: it emits exactly row_count × column_count
records, their id pairs enumerate every (row label, column label) pair
(diagonal included, nothing dropped or duplicated), and re-pivoting the
edge list keyed by the same id pair reproduces the original matrix
exactly. -/
theorem claim_C5_long_format_bijection (w : WideTable) (hwf : w.WellFormed)
    (hrnd : w.rowLabels.Nodup) (hcnd : w.colLabels.Nodup) :
    (convertToLongFormat w).length = w.rowLabels.length * w.colLabels.length ∧
    (convertToLongFormat w).map (fun e => (e.src, e.tgt)) =
      w.rowLabels.flatMap (fun rl => w.colLabels.map (fun cl => (rl, cl))) ∧
    pivotLongFormat w.rowLabels w.colLabels (convertToLongFormat w) = w.cells := by
  rcases hwf with ⟨hlen, hrows⟩
  refine ⟨convert_length_aux w.colLabels w.rowLabels w.cells hlen hrows,
    convert_pairs_aux w.colLabels w.rowLabels w.cells hlen hrows,
    pivot_convert_aux w.colLabels hcnd w.rowLabels w.cells hrnd hlen hrows⟩

/-- The 3×3 wide fixture of `test__convert_to_long_format`
(`similarities_wide.csv`): labels 1,2,3 with the cell values the test
checks ([1,3]=9, [3,1]=6, [2,3]=1, [1,2]=6). -/
def wideFix : WideTable :=
  { rowLabels := ["1", "2", "3"],
    colLabels := ["1", "2", "3"],
    cells := [[10, 6, 9], [4, 30, 1], [6, 2, 7]] }

/-- C5 witness: the bijection theorem applied to the concrete 3×3
fixture-shaped table. -/
theorem claim_C5_witness :
    (convertToLongFormat wideFix).length = wideFix.rowLabels.length * wideFix.colLabels.length ∧
    (convertToLongFormat wideFix).map (fun e => (e.src, e.tgt)) =
      wideFix.rowLabels.flatMap (fun rl => wideFix.colLabels.map (fun cl => (rl, cl))) ∧
    pivotLongFormat wideFix.rowLabels wideFix.colLabels (convertToLongFormat wideFix) =
      wideFix.cells :=
  claim_C5_long_format_bijection wideFix ⟨by decide, by decide⟩ (by decide) (by decide)

/-! ## Claims C2, C6, C7, C8 -/

/-- Construction succeeds on a Spark frame whose feature columns are
null-free and of numeric declared type, whatever the metric selector. -/
theorem mkSimilarity_ok (df : SDF) (ic st : String)
    (hspark : df.isSpark = true)
    (hnull : ∀ c ∈ featureCols df ic, nullCount c = 0)
    (hnum : ∀ c ∈ featureCols df ic, c.dtype.isNumeric = true) :
    mkSimilarity df ic st = Except.ok ⟨df, ic, st⟩ := by
  unfold mkSimilarity
  rw [if_neg (by simp [hspark])]
  split
  · next c heq =>
    have hp := List.find?_some heq
    have hc := List.mem_of_find?_eq_some heq
    simp [hnull c hc] at hp
  · split
    · next c heq =>
      have hp := List.find?_some heq
      have hc := List.mem_of_find?_eq_some heq
      simp [hnum c hc] at hp
    · rfl

/-- C6: for every metric selector outside {cosine, euclidean} and every
valid input table, construction of the engine succeeds without error,
and the subsequent `generate()` call fails with a value-domain error
carrying the unsupported selector. -/
theorem claim_C6_unsupported_selector_deferred (df : SDF) (ic st : String)
    (hspark : df.isSpark = true)
    (hnull : ∀ c ∈ featureCols df ic, nullCount c = 0)
    (hnum : ∀ c ∈ featureCols df ic, c.dtype.isNumeric = true)
    (hst : st ≠ "cosine" ∧ st ≠ "euclidean") :
    mkSimilarity df ic st = Except.ok ⟨df, ic, st⟩ ∧
      generate ⟨df, ic, st⟩ = Except.error (GenError.valueError st) := by
  refine ⟨mkSimilarity_ok df ic st hspark hnull hnum, ?_⟩
  unfold generate
  rw [if_neg]
  rintro (h | h)
  · exact hst.1 h
  · exact hst.2 h

/-- A feature table shaped like the `features.csv` fixture: a string
identifier column and integer feature columns, as a Spark frame. -/
def dfFeat : SDF :=
  { isSpark := true,
    cols := [⟨"recipe_id", DType.stringType, [Cell.cstr "a", Cell.cstr "b"]⟩,
             ⟨"calories", DType.integerType, [Cell.cint 3, Cell.cint 4]⟩,
             ⟨"weight", DType.integerType, [Cell.cint 5, Cell.cint 1]⟩] }

/-- C6 witness: the deferred-failure theorem at the concrete table with
the selector `test` used by `test_generate`. -/
theorem claim_C6_witness :
    mkSimilarity dfFeat "recipe_id" "test" = Except.ok ⟨dfFeat, "recipe_id", "test"⟩ ∧
      generate ⟨dfFeat, "recipe_id", "test"⟩ = Except.error (GenError.valueError "test") :=
  claim_C6_unsupported_selector_deferred dfFeat "recipe_id" "test"
    (by decide) (by decide) (by decide) (by decide)

/-- C2 counterexample: for a concrete validly constructed engine with
the cosine metric, `generate()` returns a list of exactly two
artifacts, not three. -/
theorem claim_C2_counterexample :
    (mkSimilarity dfFeat "recipe_id" "cosine").map (fun s => (generate s).map List.length) =
      Except.ok (Except.ok 2) ∧ (2 : Nat) ≠ 3 := by
  constructor
  · rfl
  · decide

/-- C2 (amended): for every validly constructed engine with a supported
metric, `generate()` returns exactly two artifacts — the entity-labeled
similarity table (labeled on both axes by the identifier column's
values in input row order, with an N×N cell matrix for N input rows)
and the raw numeric matrix, which holds the same cells. -/
theorem claim_C2_generate_two_artifacts (df : SDF) (ic st : String) (s : Similarity)
    (hst : st = "cosine" ∨ st = "euclidean")
    (hok : mkSimilarity df ic st = Except.ok s) :
    ∃ t m, generate s = Except.ok [Artifact.labeledTable t, Artifact.rawMatrix m] ∧
      m = t.cells ∧
      t.rowLabels = indexValues df ic ∧ t.colLabels = indexValues df ic ∧
      t.cells.length = nRows df ∧ (∀ row ∈ t.cells, row.length = nRows df) := by
  have hs : s = ⟨df, ic, st⟩ := by
    unfold mkSimilarity at hok
    split at hok
    · exact absurd hok (by simp)
    · split at hok
      · exact absurd hok (by simp)
      · split at hok
        · exact absurd hok (by simp)
        · exact (Except.ok.inj hok).symm
  subst hs
  unfold generate
  rw [if_pos hst]
  refine ⟨_, _, rfl, rfl, rfl, rfl, by simp [featureVectors], ?_⟩
  intro row hrow
  rcases List.mem_map.mp hrow with ⟨a, _, rfl⟩
  simp [featureVectors]

/-- C2 witness: the two-artifact theorem at the concrete table. -/
theorem claim_C2_witness :
    ∃ t m, generate ⟨dfFeat, "recipe_id", "cosine"⟩ =
        Except.ok [Artifact.labeledTable t, Artifact.rawMatrix m] ∧
      m = t.cells ∧
      t.rowLabels = indexValues dfFeat "recipe_id" ∧
      t.colLabels = indexValues dfFeat "recipe_id" ∧
      t.cells.length = nRows dfFeat ∧ (∀ row ∈ t.cells, row.length = nRows dfFeat) :=
  claim_C2_generate_two_artifacts dfFeat "recipe_id" "cosine" ⟨dfFeat, "recipe_id", "cosine"⟩
    (Or.inl rfl) (by rfl)

/-- C7: construction fails with a validation error whenever some
feature column is of non-numeric declared type — the check inspects
the declared type only, so values that are numeric as text still fail —
and succeeds on the same data once every feature column carries an
integer or double type (the other validations passing). -/
theorem claim_C7_non_numeric_column_rejected :
    (∀ (df : SDF) (ic st : String), df.isSpark = true →
      (∀ c ∈ featureCols df ic, nullCount c = 0) →
      (∃ c ∈ featureCols df ic, c.dtype.isNumeric = false) →
      ∃ c ∈ featureCols df ic, c.dtype.isNumeric = false ∧
        mkSimilarity df ic st = Except.error (CtorError.nonNumericalColumn c.name)) ∧
    (∀ (df : SDF) (ic st : String), df.isSpark = true →
      (∀ c ∈ featureCols df ic, nullCount c = 0) →
      (∀ c ∈ featureCols df ic, c.dtype.isNumeric = true) →
      mkSimilarity df ic st = Except.ok ⟨df, ic, st⟩) := by
  constructor
  · intro df ic st hspark hnull hbad
    have hsome : ((featureCols df ic).find? (fun c => ¬ c.dtype.isNumeric)).isSome := by
      rw [List.find?_isSome]
      rcases hbad with ⟨c, hc, hcn⟩
      exact ⟨c, hc, by simp [hcn]⟩
    rcases Option.isSome_iff_exists.mp hsome with ⟨c, heq⟩
    have hp := List.find?_some heq
    have hc := List.mem_of_find?_eq_some heq
    refine ⟨c, hc, by simpa using hp, ?_⟩
    unfold mkSimilarity
    rw [if_neg (by simp [hspark])]
    split
    · next c' heq' =>
      have hp' := List.find?_some heq'
      have hc' := List.mem_of_find?_eq_some heq'
      simp [hnull c' hc'] at hp'
    · split
      · next c' heq' =>
        rw [heq'] at heq
        rw [Option.some.inj heq]
      · next hnone =>
        rw [heq] at hnone
        simp at hnone
  · intro df ic st hspark hnull hnum
    exact mkSimilarity_ok df ic st hspark hnull hnum

/-- A table whose feature column is numeric as text but of string
declared type (the uncast `numerical_data.csv` of
`test__check_is_numerical_data`). -/
def dfTextual : SDF :=
  { isSpark := true,
    cols := [⟨"recipe_id", DType.stringType, [Cell.cstr "a", Cell.cstr "b"]⟩,
             ⟨"calories", DType.stringType, [Cell.cstr "3", Cell.cstr "4"]⟩] }

/-- The same data with the feature column cast to an integer type. -/
def dfCast : SDF :=
  { isSpark := true,
    cols := [⟨"recipe_id", DType.stringType, [Cell.cstr "a", Cell.cstr "b"]⟩,
             ⟨"calories", DType.integerType, [Cell.cint 3, Cell.cint 4]⟩] }

/-- C7 witness: the textually numeric string column fails construction;
the integer-cast version of the same data constructs successfully. -/
theorem claim_C7_witness :
    (∃ c ∈ featureCols dfTextual "recipe_id", c.dtype.isNumeric = false ∧
      mkSimilarity dfTextual "recipe_id" "cosine" =
        Except.error (CtorError.nonNumericalColumn c.name)) ∧
    mkSimilarity dfCast "recipe_id" "cosine" = Except.ok ⟨dfCast, "recipe_id", "cosine"⟩ :=
  ⟨claim_C7_non_numeric_column_rejected.1 dfTextual "recipe_id" "cosine"
      (by decide) (by decide) (by decide),
   claim_C7_non_numeric_column_rejected.2 dfCast "recipe_id" "cosine"
      (by decide) (by decide) (by decide)⟩

/-- C8: construction fails whenever some feature column contains a
null, with a validation error naming an offending feature column and
its exact null count, before any similarity computation; and an
otherwise valid table without nulls constructs successfully. -/
theorem claim_C8_null_column_rejected :
    (∀ (df : SDF) (ic st : String), df.isSpark = true →
      (∃ c ∈ featureCols df ic, nullCount c ≠ 0) →
      ∃ c ∈ featureCols df ic, nullCount c ≠ 0 ∧
        mkSimilarity df ic st =
          Except.error (CtorError.nullsInColumn c.name (nullCount c))) ∧
    (∀ (df : SDF) (ic st : String), df.isSpark = true →
      (∀ c ∈ featureCols df ic, nullCount c = 0) →
      (∀ c ∈ featureCols df ic, c.dtype.isNumeric = true) →
      mkSimilarity df ic st = Except.ok ⟨df, ic, st⟩) := by
  constructor
  · intro df ic st hspark hbad
    have hsome : ((featureCols df ic).find? (fun c => nullCount c ≠ 0)).isSome := by
      rw [List.find?_isSome]
      rcases hbad with ⟨c, hc, hcn⟩
      exact ⟨c, hc, by simp [hcn]⟩
    rcases Option.isSome_iff_exists.mp hsome with ⟨c, heq⟩
    have hp := List.find?_some heq
    have hc := List.mem_of_find?_eq_some heq
    refine ⟨c, hc, by simpa using hp, ?_⟩
    unfold mkSimilarity
    rw [if_neg (by simp [hspark])]
    split
    · next c' heq' =>
      rw [heq'] at heq
      rw [Option.some.inj heq]
    · next hnone =>
      rw [heq] at hnone
      simp at hnone
  · intro df ic st hspark hnull hnum
    exact mkSimilarity_ok df ic st hspark hnull hnum

/-- A table with a null in a feature column (`nulls_features.csv`). -/
def dfNulls : SDF :=
  { isSpark := true,
    cols := [⟨"recipe_id", DType.stringType, [Cell.cstr "a", Cell.cstr "b"]⟩,
             ⟨"calories", DType.integerType, [Cell.cint 3, Cell.cnull]⟩] }

/-- The otherwise identical table without nulls
(`no_nulls_features.csv`). -/
def dfNoNulls : SDF :=
  { isSpark := true,
    cols := [⟨"recipe_id", DType.stringType, [Cell.cstr "a", Cell.cstr "b"]⟩,
             ⟨"calories", DType.integerType, [Cell.cint 3, Cell.cint 4]⟩] }

/-- C8 witness: the null-bearing table fails construction with the
error naming the column and its null count; the null-free twin
constructs successfully. -/
theorem claim_C8_witness :
    (∃ c ∈ featureCols dfNulls "recipe_id", nullCount c ≠ 0 ∧
      mkSimilarity dfNulls "recipe_id" "cosine" =
        Except.error (CtorError.nullsInColumn c.name (nullCount c))) ∧
    mkSimilarity dfNoNulls "recipe_id" "cosine" =
      Except.ok ⟨dfNoNulls, "recipe_id", "cosine"⟩ :=
  ⟨claim_C8_null_column_rejected.1 dfNulls "recipe_id" "cosine" (by decide) (by decide),
   claim_C8_null_column_rejected.2 dfNoNulls "recipe_id" "cosine"
      (by decide) (by decide) (by decide)⟩

/-! ## Claims C9 and C10: infrastructure

The per-column `withColumn` loops of `preprocess.py` are folds of
data-frame maps; the lemmas below rewrite each stage into a single map
of a per-row transformation and track which column names a row
transformation can touch. -/

/-- A fold of row transformations each of which preserves the value of
column `n` preserves it. -/
theorem getCol_foldl_pres {γ : Type} (cs : List γ) (step : γ → Row → Row) (n : String)
    (h : ∀ c ∈ cs, ∀ r, getCol (step c r) n = getCol r n) :
    ∀ r, getCol (cs.foldl (fun r c => step c r) r) n = getCol r n := by
  induction cs with
  | nil => intro r; rfl
  | cons c t ih =>
    intro r
    simp only [List.foldl_cons]
    rw [ih (fun c' hc' => h c' (List.mem_cons_of_mem c hc')) (step c r),
      h c (List.mem_cons_self c t) r]

/-- A fold of row transformations each of which preserves the presence
of column `n` preserves it. -/
theorem hasCol_foldl_pres {γ : Type} (cs : List γ) (step : γ → Row → Row) (n : String)
    (h : ∀ c ∈ cs, ∀ r, hasCol (step c r) n = hasCol r n) :
    ∀ r, hasCol (cs.foldl (fun r c => step c r) r) n = hasCol r n := by
  induction cs with
  | nil => intro r; rfl
  | cons c t ih =>
    intro r
    simp only [List.foldl_cons]
    rw [ih (fun c' hc' => h c' (List.mem_cons_of_mem c hc')) (step c r),
      h c (List.mem_cons_self c t) r]

/-- A fold of `setCol`s whose keys all differ from `n` preserves the
value of column `n`. -/
theorem getCol_foldl_setCol_ne {γ : Type} (cs : List γ) (key : γ → String)
    (F : γ → Row → Val) (n : String) (h : ∀ c ∈ cs, key c ≠ n) :
    ∀ r, getCol (cs.foldl (fun r c => setCol r (key c) (F c r)) r) n = getCol r n :=
  getCol_foldl_pres cs (fun c r => setCol r (key c) (F c r)) n
    (fun c hc r => getCol_setCol_ne r (key c) n (F c r) (fun hn => h c hc hn.symm))

/-- A fold of `setCol`s whose keys all differ from `n` preserves the
presence of column `n`. -/
theorem hasCol_foldl_setCol_ne {γ : Type} (cs : List γ) (key : γ → String)
    (F : γ → Row → Val) (n : String) (h : ∀ c ∈ cs, key c ≠ n) :
    ∀ r, hasCol (cs.foldl (fun r c => setCol r (key c) (F c r)) r) n = hasCol r n :=
  hasCol_foldl_pres cs (fun c r => setCol r (key c) (F c r)) n
    (fun c hc r => hasCol_setCol_ne r (key c) n (F c r) (fun hn => h c hc hn.symm))

/-- Mapping a row transformation that cannot change whether a row
satisfies `p` preserves the `p`-count of the frame. -/
theorem countP_map_of_preserved (df : DFrame) (f : Row → Row) (p : Row → Bool)
    (h : ∀ r, p (f r) = p r) : (df.map f).countP p = df.countP p := by
  rw [List.countP_map]
  exact List.countP_congr (fun r _ => by simp [Function.comp_apply, h r])

/-- The row transformation of `_rectify_country_labels`. -/
def rectifyRow (columns : List String) (r : Row) : Row :=
  (columns.filter (fun c => strContains c "country")).foldl
    (fun r c => countryPatterns.foldl
      (fun r pr => setCol r c (mapStr (fun s => strReplace s pr.1 pr.2) (getCol r c))) r) r

theorem rectifyCountryLabels_eq_map (columns : List String) (df : DFrame) :
    rectifyCountryLabels columns df = df.map (rectifyRow columns) := by
  unfold rectifyCountryLabels rectifyRow withColumnStr
  rw [show (fun (acc : DFrame) (c : String) => countryPatterns.foldl
        (fun acc2 pr => acc2.map fun r =>
          setCol r c (mapStr (fun s => strReplace s pr.1 pr.2) (getCol r c))) acc) =
      (fun (acc : DFrame) (c : String) => acc.map (fun r => countryPatterns.foldl
        (fun r pr => setCol r c (mapStr (fun s => strReplace s pr.1 pr.2) (getCol r c))) r))
    from funext fun acc => funext fun c => foldl_map_eq_map_foldl _ _ _]
  exact foldl_map_eq_map_foldl _ _ _

/-- The row transformation of
`_replace_whitespaces_with_underscores`, for a given column list. -/
def wsRow (cs : List String) (r : Row) : Row :=
  cs.foldl (fun r c => setCol r c (mapStr (fun s => strReplace s " " "_") (getCol r c))) r

theorem replaceWhitespaces_eq_map (indexColumn : String) (df : DFrame) :
    replaceWhitespacesWithUnderscores indexColumn df =
      df.map (wsRow ((dfCols df).filter (fun c => c ≠ indexColumn))) := by
  unfold replaceWhitespacesWithUnderscores wsRow withColumnStr
  exact foldl_map_eq_map_foldl _ _ _

/-- The row transformation of `_convert_columns_to_lower_case`, for a
given column list. -/
def lowerRow (cs : List String) (r : Row) : Row :=
  cs.foldl (fun r c => setCol r c (mapStr strLower (getCol r c))) r

theorem convertColumnsToLowerCase_eq_map (indexColumn : String) (df : DFrame) :
    convertColumnsToLowerCase indexColumn df =
      df.map (lowerRow ((dfCols df).filter (fun c => c ≠ indexColumn))) := by
  unfold convertColumnsToLowerCase lowerRow withColumnStr
  exact foldl_map_eq_map_foldl _ _ _

/-- The row transformation of `_convert_nas`, for a given column
list. -/
def nasRow (cs : List String) (r : Row) : Row :=
  cs.foldl (fun r c =>
    setCol r c (mapStr (fun s => strReplace s "#n/a" (c ++ "_not_applicable")) (getCol r c))) r

theorem convertNas_eq_map (indexColumn : String) (df : DFrame) :
    convertNas indexColumn df =
      df.map (nasRow ((dfCols df).filter (fun c => c ≠ indexColumn))) := by
  unfold convertNas nasRow withColumnStr
  exact foldl_map_eq_map_foldl _ _ _

/-- The row transformation of `_convert_prep_time` when `prep_time` is
configured. -/
def prepRow (r : Row) : Row :=
  dropCol
    (setCol (setCol r "prep_time_copy" (getCol r "prep_time")) "prep_time"
      (mapStr prepTimeUpperBound
        (getCol (setCol r "prep_time_copy" (getCol r "prep_time")) "prep_time_copy")))
    "prep_time_copy"

theorem convertPrepTime_eq_map (columns : List String) (df : DFrame) :
    convertPrepTime columns df =
      if "prep_time" ∈ columns then df.map prepRow else df := by
  unfold convertPrepTime prepRow
  split
  · rw [List.map_map, List.map_map]
    rfl
  · rfl

/-- The per-column row transformation of `_convert_to_one_hot`: set
one indicator per distinct value of `c` in the stage's input frame,
then drop `c`. -/
def rowOneHotStep (df : DFrame) (c : String) (r : Row) : Row :=
  dropCol
    ((labelsOf df c).foldl (fun r l =>
      setCol r (oneHotName c l) (oneHotIndicator (getCol r c) l)) r)
    c

/-- The whole-pipeline row transformation of `_convert_to_one_hot`. -/
def oneHotRow (df : DFrame) (columns : List String) (r : Row) : Row :=
  columns.foldl (fun r c => rowOneHotStep df c r) r

theorem convertToOneHot_eq_map (df : DFrame) (columns : List String) :
    convertToOneHot columns df = df.map (oneHotRow df columns) := by
  suffices h : ∀ (cols : List String) (acc : DFrame),
      cols.foldl (fun acc c => ((labelsOf df c).foldl (fun a l =>
        a.map (fun r => setCol r (oneHotName c l) (oneHotIndicator (getCol r c) l))) acc).map
        (fun r => dropCol r c)) acc =
      acc.map (fun r => cols.foldl (fun r c => rowOneHotStep df c r) r) by
    exact h columns df
  intro cols
  induction cols with
  | nil => intro acc; simp
  | cons c cols' ih =>
    intro acc
    simp only [List.foldl_cons]
    rw [foldl_map_eq_map_foldl
        (fun l r => setCol r (oneHotName c l) (oneHotIndicator (getCol r c) l))
        (labelsOf df c) acc,
      List.map_map, ih]
    rw [List.map_map]
    rfl

theorem getCol_selectCols_head (cs : List String) (ic : String) (r : Row) :
    getCol (selectCols (ic :: cs) r) ic = getCol r ic := by
  simp [selectCols, getCol]

theorem getCol_rectifyRow (columns : List String) (ic : String)
    (hic : ic ∉ columns) (r : Row) :
    getCol (rectifyRow columns r) ic = getCol r ic := by
  unfold rectifyRow
  refine getCol_foldl_pres _ _ _ (fun c hc r => ?_) r
  have hcic : c ≠ ic := fun h => hic (h ▸ List.mem_of_mem_filter hc)
  exact getCol_foldl_setCol_ne countryPatterns (fun _ => c) _ ic (fun _ _ => hcic) r

theorem getCol_wsRow (cs : List String) (ic : String)
    (h : ∀ c ∈ cs, c ≠ ic) (r : Row) :
    getCol (wsRow cs r) ic = getCol r ic :=
  getCol_foldl_setCol_ne cs (fun c => c) _ ic h r

theorem getCol_lowerRow (cs : List String) (ic : String)
    (h : ∀ c ∈ cs, c ≠ ic) (r : Row) :
    getCol (lowerRow cs r) ic = getCol r ic :=
  getCol_foldl_setCol_ne cs (fun c => c) _ ic h r

theorem getCol_nasRow (cs : List String) (ic : String)
    (h : ∀ c ∈ cs, c ≠ ic) (r : Row) :
    getCol (nasRow cs r) ic = getCol r ic :=
  getCol_foldl_setCol_ne cs (fun c => c) _ ic h r

theorem getCol_prepRow (ic : String) (h1 : ic ≠ "prep_time")
    (h2 : ic ≠ "prep_time_copy") (r : Row) :
    getCol (prepRow r) ic = getCol r ic := by
  unfold prepRow
  rw [getCol_dropCol_ne _ _ _ h2, getCol_setCol_ne _ _ _ _ h1,
    getCol_setCol_ne _ _ _ _ h2]

theorem getCol_rowOneHotStep_ne (df : DFrame) (c ic : String)
    (h1 : ic ≠ c) (h2 : ∀ l ∈ labelsOf df c, oneHotName c l ≠ ic) (r : Row) :
    getCol (rowOneHotStep df c r) ic = getCol r ic := by
  unfold rowOneHotStep
  rw [getCol_dropCol_ne _ _ _ h1,
    getCol_foldl_setCol_ne (labelsOf df c) (oneHotName c) _ ic h2 r]

theorem getCol_oneHotRow_ne (df : DFrame) (columns : List String) (ic : String)
    (h : ∀ c ∈ columns, ic ≠ c ∧ ∀ l ∈ labelsOf df c, oneHotName c l ≠ ic) (r : Row) :
    getCol (oneHotRow df columns r) ic = getCol r ic :=
  getCol_foldl_pres columns _ ic
    (fun c hc r => getCol_rowOneHotStep_ne df c ic (h c hc).1 (h c hc).2 r) r

/-- Indicator names belong to `oneHotNames`. -/
theorem oneHotName_mem_oneHotNames (df : DFrame) (columns : List String)
    {c : String} {l : Val} (hc : c ∈ columns) (hl : l ∈ labelsOf df c) :
    oneHotName c l ∈ oneHotNames df columns := by
  unfold oneHotNames
  exact List.mem_flatMap.mpr ⟨c, hc, List.mem_map.mpr ⟨l, hl, rfl⟩⟩

/-- The whole `preprocess()` pipeline preserves, row for row, the value
of the index column, hence the number of rows carrying each index
value. -/
theorem preprocess_countP_index (st : PState) (v : Val)
    (hic : st.indexColumn ∉ st.columns)
    (hcopy : st.indexColumn ≠ "prep_time_copy")
    (hnames : ∀ n ∈ oneHotNames (preOneHot st) st.columns, n ≠ st.indexColumn) :
    (preprocess st).countP (fun r => getCol r st.indexColumn = v) =
      st.df.countP (fun r => getCol r st.indexColumn = v) := by
  have honehot : (preprocess st).countP (fun r => getCol r st.indexColumn = v) =
      (preOneHot st).countP (fun r => getCol r st.indexColumn = v) := by
    unfold preprocess
    rw [convertToOneHot_eq_map]
    refine countP_map_of_preserved _ _ _ (fun r => ?_)
    rw [getCol_oneHotRow_ne (preOneHot st) st.columns st.indexColumn
      (fun c hc => ⟨fun h => hic (h ▸ hc),
        fun l hl => hnames _ (oneHotName_mem_oneHotNames _ _ hc hl)⟩) r]
  rw [honehot]
  unfold preOneHot
  rw [convertPrepTime_eq_map]
  have hfilter : ∀ (d : DFrame) (c : String),
      c ∈ (dfCols d).filter (fun c => c ≠ st.indexColumn) → c ≠ st.indexColumn := by
    intro d c hc
    simpa using List.of_mem_filter hc
  have hprep : ∀ (d : DFrame),
      (if "prep_time" ∈ st.columns then d.map prepRow else d).countP
        (fun r => getCol r st.indexColumn = v) =
      d.countP (fun r => getCol r st.indexColumn = v) := by
    intro d
    split
    · next hpt =>
      refine countP_map_of_preserved _ _ _ (fun r => ?_)
      rw [getCol_prepRow st.indexColumn (fun h => hic (h ▸ hpt)) hcopy r]
    · rfl
  rw [hprep]
  rw [convertNas_eq_map]
  rw [countP_map_of_preserved _ _ _ (fun r => by
    rw [getCol_nasRow _ _ (hfilter _) r])]
  rw [convertColumnsToLowerCase_eq_map]
  rw [countP_map_of_preserved _ _ _ (fun r => by
    rw [getCol_lowerRow _ _ (hfilter _) r])]
  rw [replaceWhitespaces_eq_map]
  rw [countP_map_of_preserved _ _ _ (fun r => by
    rw [getCol_wsRow _ _ (hfilter _) r])]
  rw [rectifyCountryLabels_eq_map]
  rw [countP_map_of_preserved _ _ _ (fun r => by
    rw [getCol_rectifyRow st.columns st.indexColumn hic r])]
  unfold removeColumns
  rw [countP_map_of_preserved _ _ _ (fun r => by
    rw [getCol_selectCols_head _ _ r])]

/-- `_remove_duplicate_indexes` with an injective priority draw keeps
exactly one row per index value present in the input. -/
theorem removeDuplicateIndexes_countP_eq_one (indexColumn : String)
    (pri : Nat → Nat) (df : DFrame) (hpri : Function.Injective pri) (v : Val)
    (hv : 0 < df.countP (fun r => getCol r indexColumn = v)) :
    (removeDuplicateIndexes indexColumn pri df).countP
      (fun r => getCol r indexColumn = v) = 1 := by
  unfold removeDuplicateIndexes
  rw [List.countP_map]
  rcases List.countP_pos_iff.mp hv with ⟨r, hr, hpr⟩
  have hprv : getCol r indexColumn = v := by simpa using hpr
  rcases mem_enum_of_mem hr with ⟨i, hie⟩
  have hGne : df.enum.filter (fun q => getCol q.2 indexColumn = v) ≠ [] := by
    intro hnil
    have : (i, r) ∈ df.enum.filter (fun q => getCol q.2 indexColumn = v) :=
      List.mem_filter.mpr ⟨hie, by simpa using hprv⟩
    rw [hnil] at this
    simp at this
  rcases exists_min_key _ (fun q => pri q.1) hGne with ⟨m, hmG, hmin⟩
  have hmenum : m ∈ df.enum := List.mem_of_mem_filter hmG
  have hmv : getCol m.2 indexColumn = v := by
    simpa using List.of_mem_filter hmG
  apply countP_eq_one_of_unique _ _ m ((nodup_enum df).filter _)
  · refine List.mem_filter.mpr ⟨hmenum, ?_⟩
    rw [List.all_eq_true]
    intro q hq
    by_cases hq1 : q.1 = m.1
    · simp [hq1]
    · by_cases hqv : getCol q.2 indexColumn = v
      · have hqG : q ∈ df.enum.filter (fun q => getCol q.2 indexColumn = v) :=
          List.mem_filter.mpr ⟨hq, by simpa using hqv⟩
        have hle : pri m.1 ≤ pri q.1 := hmin q hqG
        have hne : pri m.1 ≠ pri q.1 := fun h => hq1 (hpri h).symm
        simp [Nat.lt_of_le_of_ne hle hne]
      · have : getCol q.2 indexColumn ≠ getCol m.2 indexColumn := by
          rw [hmv]; exact hqv
        simp [this]
  · simpa [Function.comp] using hmv
  · rintro ⟨j, rb⟩ hb hpb
    have hbenum : (j, rb) ∈ df.enum := List.mem_of_mem_filter hb
    have hbv : getCol rb indexColumn = v := by
      simpa [Function.comp] using hpb
    by_cases hj : j = m.1
    · subst hj
      have hmm : (m.1, m.2) ∈ df.enum := by
        rw [Prod.mk.eta]
        exact hmenum
      have hre : rb = m.2 := mem_enum_inj hbenum hmm
      rw [hre]
    · exfalso
      have hbG : (j, rb) ∈ df.enum.filter (fun q => getCol q.2 indexColumn = v) :=
        List.mem_filter.mpr ⟨hbenum, by simpa using hbv⟩
      have hle : pri m.1 ≤ pri j := hmin (j, rb) hbG
      have hFb := List.of_mem_filter hb
      rw [List.all_eq_true] at hFb
      have hcond := hFb m hmenum
      simp only [Bool.or_eq_true, decide_eq_true_eq] at hcond
      rcases hcond with ((h1 | h2) | h3)
      · exact hj h1.symm
      · rw [hmv, hbv] at h2
        simp at h2
      · have hcontra : pri j < pri j := Nat.lt_of_lt_of_le h3 hle
        exact absurd hcontra (lt_irrefl _)

/-- C9: after `Preprocess` construction completes (under a sane
configuration: the index column is not a configured attribute column,
is not the reserved name `prep_time_copy`, and collides with no
generated indicator-column name), every index value present in the
input appears in exactly one row of the held table — the surviving row
being selected by the random ordering draw, any duplicate-group member
being selectable by a suitable draw — and every subsequent
`preprocess()` transformation stage preserves, value for value, the
number of rows carrying each index value, hence the uniqueness. -/
theorem claim_C9_unique_index_after_construction (df : DFrame) (ca : ColumnsArg)
    (ic : String) (pri : Nat → Nat) (st : PState)
    (hpri : Function.Injective pri)
    (hok : mkPreprocess df ca ic pri = Except.ok st)
    (hic : ic ∉ st.columns)
    (hcopy : ic ≠ "prep_time_copy")
    (hnames : ∀ n ∈ oneHotNames (preOneHot st) st.columns, n ≠ ic) :
    (∀ v, 0 < df.countP (fun r => getCol r ic = v) →
      st.df.countP (fun r => getCol r ic = v) = 1) ∧
    (∀ v, (preprocess st).countP (fun r => getCol r ic = v) =
      st.df.countP (fun r => getCol r ic = v)) ∧
    (∀ i, i < df.length → ∃ pri2 : Nat → Nat, Function.Injective pri2 ∧
      df.getD i [] ∈ removeDuplicateIndexes ic pri2 df) := by
  have hinv : st.df = removeDuplicateIndexes ic pri df ∧ st.indexColumn = ic := by
    simp only [mkPreprocess] at hok
    split at hok
    · exact absurd hok (by simp)
    · split at hok
      · exact absurd hok (by simp)
      · have h := Except.ok.inj hok
        rw [← h]
        exact ⟨rfl, rfl⟩
  refine ⟨?_, ?_, ?_⟩
  · intro v hv
    rw [hinv.1]
    exact removeDuplicateIndexes_countP_eq_one ic pri df hpri v hv
  · intro v
    have hic' : st.indexColumn ∉ st.columns := by rw [hinv.2]; exact hic
    have hcopy' : st.indexColumn ≠ "prep_time_copy" := by rw [hinv.2]; exact hcopy
    have hnames' : ∀ n ∈ oneHotNames (preOneHot st) st.columns, n ≠ st.indexColumn := by
      rw [hinv.2]; exact hnames
    have h := preprocess_countP_index st v hic' hcopy' hnames'
    rw [hinv.2] at h
    exact h
  · intro i hi
    refine ⟨fun j => if j = i then 0 else j + 1, ?_, ?_⟩
    · intro a b hab
      have hab2 : (if a = i then 0 else a + 1) = (if b = i then 0 else b + 1) := hab
      by_cases ha : a = i
      · by_cases hb : b = i
        · rw [ha, hb]
        · rw [if_pos ha, if_neg hb] at hab2
          omega
      · by_cases hb : b = i
        · rw [if_neg ha, if_pos hb] at hab2
          omega
        · rw [if_neg ha, if_neg hb] at hab2
          omega
    · have hrow : (i, df.getD i []) ∈ df.enum := by
        rw [List.mk_mem_enum_iff_getElem?, List.getElem?_eq_getElem hi,
          List.getD_eq_getElem?_getD, List.getElem?_eq_getElem hi]
        rfl
      unfold removeDuplicateIndexes
      apply List.mem_map.mpr
      refine ⟨(i, df.getD i []), ?_, rfl⟩
      refine List.mem_filter.mpr ⟨hrow, ?_⟩
      rw [List.all_eq_true]
      intro q hq
      by_cases hqi : q.1 = i
      · simp [hqi]
      · have hlt : (0 : Nat) < q.1 + 1 := Nat.succ_pos _
        simp [hqi, hlt]

/-- A labelled input frame with a duplicated index value `a`. -/
def rowC9a : Row := [("recipe_id", Val.vstr "a"), ("colour", Val.vstr "Red Hot")]

/-- The second row sharing index value `a`. -/
def rowC9a2 : Row := [("recipe_id", Val.vstr "a"), ("colour", Val.vstr "blue")]

/-- A row with index value `b`. -/
def rowC9b : Row := [("recipe_id", Val.vstr "b"), ("colour", Val.vstr "Red Hot")]

/-- The concrete input frame: two rows share index `a`. -/
def dfC9 : DFrame := [rowC9a, rowC9a2, rowC9b]

/-- The state `Preprocess.__init__` holds for `dfC9` under the identity
priority draw: the duplicate of `a` is gone. -/
def stC9 : PState := ⟨[rowC9a, rowC9b], ["colour"], "recipe_id"⟩

/-- C9 witness: the uniqueness theorem at the concrete duplicated
frame. -/
theorem claim_C9_witness :
    (∀ v, 0 < dfC9.countP (fun r => getCol r "recipe_id" = v) →
      stC9.df.countP (fun r => getCol r "recipe_id" = v) = 1) ∧
    (∀ v, (preprocess stC9).countP (fun r => getCol r "recipe_id" = v) =
      stC9.df.countP (fun r => getCol r "recipe_id" = v)) ∧
    (∀ i, i < dfC9.length → ∃ pri2 : Nat → Nat, Function.Injective pri2 ∧
      dfC9.getD i [] ∈ removeDuplicateIndexes "recipe_id" pri2 dfC9) :=
  claim_C9_unique_index_after_construction dfC9 ColumnsArg.all "recipe_id" id stC9
    (fun _ _ h => h) (by rfl) (by decide) (by decide) (by decide)

/-- Whether a cell holds a string. -/
def Val.isStr : Val → Bool
  | Val.vstr _ => true
  | Val.vint _ => false
  | Val.vnull => false

/-- An indicator-column name is strictly longer than, hence different
from, its source column's name. -/
theorem oneHotName_ne (c : String) (l : Val) : oneHotName c l ≠ c := by
  intro h
  have hlen := congrArg String.length h
  rw [oneHotName, String.length_append, String.length_append] at hlen
  have h1 : ("_" : String).length = 1 := rfl
  omega

/-- Every label of a column is the value of some row. -/
theorem labelsOf_mem (df : DFrame) (c : String) {l : Val}
    (hl : l ∈ labelsOf df c) : ∃ r ∈ df, getCol r c = l := by
  unfold labelsOf at hl
  rcases List.mem_map.mp (List.mem_dedup.mp hl) with ⟨r, hr, rfl⟩
  exact ⟨r, hr, rfl⟩

/-- Every row's value of a column is among the column's labels. -/
theorem getCol_mem_labelsOf (df : DFrame) (c : String) {r : Row} (hr : r ∈ df) :
    getCol r c ∈ labelsOf df c := by
  unfold labelsOf
  exact List.mem_dedup.mpr (List.mem_map.mpr ⟨r, hr, rfl⟩)

/-- On non-null operands the Spark indicator expression is the plain
equality indicator. -/
theorem oneHotIndicator_eq (v l : Val) (hv : v ≠ Val.vnull) (hl : l ≠ Val.vnull) :
    oneHotIndicator v l = if v = l then Val.vint 1 else Val.vint 0 := by
  unfold oneHotIndicator
  rw [if_neg (by simp [hv, hl])]

theorem hasCol_rowOneHotStep_self (df : DFrame) (c : String) (r : Row) :
    hasCol (rowOneHotStep df c r) c = false := by
  unfold rowOneHotStep
  exact hasCol_dropCol_self _ _

theorem hasCol_rowOneHotStep_ne (df : DFrame) (c' c : String)
    (h1 : c ≠ c') (h2 : ∀ l ∈ labelsOf df c', oneHotName c' l ≠ c) (r : Row) :
    hasCol (rowOneHotStep df c' r) c = hasCol r c := by
  unfold rowOneHotStep
  rw [hasCol_dropCol_ne _ _ _ h1,
    hasCol_foldl_setCol_ne (labelsOf df c') (oneHotName c') _ c h2 r]

/-- After the indicator fold of one column, each indicator column holds
the indicator of the row's (original) value of that column. -/
theorem getCol_setLabels (c : String) :
    ∀ (labels : List Val), (labels.map (oneHotName c)).Nodup →
      ∀ (r : Row) (l : Val), l ∈ labels →
        getCol (labels.foldl (fun r l =>
            setCol r (oneHotName c l) (oneHotIndicator (getCol r c) l)) r)
          (oneHotName c l) =
        oneHotIndicator (getCol r c) l := by
  intro labels
  induction labels with
  | nil => intro _ r l hl; simp at hl
  | cons l0 ls ih =>
    intro hnd r l hl
    simp only [List.map_cons, List.nodup_cons] at hnd
    simp only [List.foldl_cons]
    rcases List.mem_cons.mp hl with rfl | hl'
    · rw [getCol_foldl_setCol_ne ls (oneHotName c) _ (oneHotName c l)
        (fun l' hl' h => hnd.1 (h ▸ List.mem_map.mpr ⟨l', hl', rfl⟩))]
      exact getCol_setCol_self r _ _
    · have hr : getCol (setCol r (oneHotName c l0) (oneHotIndicator (getCol r c) l0)) c =
          getCol r c :=
        getCol_setCol_ne _ _ _ _ (fun h => oneHotName_ne c l0 h.symm)
      rw [ih hnd.2 _ l hl', hr]

/-- The per-column specification of the one-hot row transformation: the
processed column is dropped, and each of its indicator columns holds
the indicator of the row's original value. -/
theorem oneHotRow_spec (df : DFrame) :
    ∀ (cols : List String), cols.Nodup →
      (∀ n ∈ oneHotNames df cols, n ∉ cols) →
      (oneHotNames df cols).Nodup →
      ∀ c ∈ cols, ∀ r : Row,
        hasCol (oneHotRow df cols r) c = false ∧
        ∀ l ∈ labelsOf df c,
          getCol (oneHotRow df cols r) (oneHotName c l) =
            oneHotIndicator (getCol r c) l := by
  intro cols
  induction cols with
  | nil => intro _ _ _ c hc; simp at hc
  | cons c0 cols' ih =>
    intro hnd hfresh hnodup c hc r
    have hnd' : cols'.Nodup := (List.nodup_cons.mp hnd).2
    have hc0 : c0 ∉ cols' := (List.nodup_cons.mp hnd).1
    have hnames_eq : oneHotNames df (c0 :: cols') =
        (labelsOf df c0).map (oneHotName c0) ++ oneHotNames df cols' := by
      unfold oneHotNames
      simp
    have hfresh' : ∀ n ∈ oneHotNames df cols', n ∉ cols' := by
      intro n hn hmem
      exact hfresh n (by rw [hnames_eq]; exact List.mem_append_right _ hn)
        (List.mem_cons_of_mem _ hmem)
    have hnodup2 := hnodup
    rw [hnames_eq] at hnodup2
    have hnodup' : (oneHotNames df cols').Nodup := hnodup2.of_append_right
    have hblocknd : ((labelsOf df c0).map (oneHotName c0)).Nodup := hnodup2.of_append_left
    have hdisj : ∀ a ∈ (labelsOf df c0).map (oneHotName c0),
        a ∉ oneHotNames df cols' :=
      fun a ha => (List.disjoint_of_nodup_append hnodup2) ha
    simp only [oneHotRow, List.foldl_cons]
    rcases List.mem_cons.mp hc with rfl | hc'
    · constructor
      · have hpres : ∀ c' ∈ cols', ∀ rr : Row,
            hasCol (rowOneHotStep df c' rr) c = hasCol rr c := by
          intro c' hc' rr
          apply hasCol_rowOneHotStep_ne df c' c
          · exact fun h => hc0 (h ▸ hc')
          · intro l hl h
            exact hfresh (oneHotName c' l)
              (oneHotName_mem_oneHotNames df _ (List.mem_cons_of_mem _ hc') hl)
              (h ▸ List.mem_cons_self c cols')
        rw [hasCol_foldl_pres cols' _ c hpres (rowOneHotStep df c r),
          hasCol_rowOneHotStep_self df c r]
      · intro l hl
        have hpres : ∀ c' ∈ cols', ∀ rr : Row,
            getCol (rowOneHotStep df c' rr) (oneHotName c l) =
              getCol rr (oneHotName c l) := by
          intro c' hc' rr
          apply getCol_rowOneHotStep_ne df c' (oneHotName c l)
          · intro h
            exact hfresh (oneHotName c l)
              (oneHotName_mem_oneHotNames df _ (List.mem_cons_self _ _) hl)
              (h ▸ List.mem_cons_of_mem _ hc')
          · intro l' hl' h
            exact hdisj (oneHotName c l) (List.mem_map.mpr ⟨l, hl, rfl⟩)
              (h ▸ oneHotName_mem_oneHotNames df _ hc' hl')
        rw [getCol_foldl_pres cols' _ _ hpres (rowOneHotStep df c r)]
        unfold rowOneHotStep
        rw [getCol_dropCol_ne _ _ _ (oneHotName_ne c l)]
        exact getCol_setLabels c (labelsOf df c) hblocknd r l hl
    · have hval : getCol (rowOneHotStep df c0 r) c = getCol r c := by
        apply getCol_rowOneHotStep_ne df c0 c
        · exact fun h => hc0 (h ▸ hc')
        · intro l hl h
          exact hfresh (oneHotName c0 l)
            (oneHotName_mem_oneHotNames df _ (List.mem_cons_self _ _) hl)
            (h ▸ List.mem_cons_of_mem _ hc')
      have ihc := ih hnd' hfresh' hnodup' c hc' (rowOneHotStep df c0 r)
      unfold oneHotRow at ihc
      refine ⟨ihc.1, ?_⟩
      intro l hl
      rw [ihc.2 l hl, hval]

/-- C10: under a collision-free configuration (distinct configured
columns, indicator names colliding neither with each other nor with
the configured columns) and string-valued configured columns, the
one-hot stage of `preprocess()` maps each row independently; for every
configured column it creates one indicator column per distinct value of
that column, drops the original column, and in every row the indicator
whose label matches the row's value equals 1 while every other
indicator of that column equals 0 — so exactly one of the column's
indicators equals 1. -/
theorem claim_C10_one_hot_encoding (df : DFrame) (cols : List String)
    (hnd : cols.Nodup)
    (hfresh : ∀ n ∈ oneHotNames df cols, n ∉ cols)
    (hnodup : (oneHotNames df cols).Nodup)
    (hstr : ∀ r ∈ df, ∀ c ∈ cols, (getCol r c).isStr = true) :
    convertToOneHot cols df = df.map (oneHotRow df cols) ∧
    ∀ c ∈ cols, ∀ r ∈ df,
      hasCol (oneHotRow df cols r) c = false ∧
      (∀ l ∈ labelsOf df c,
        getCol (oneHotRow df cols r) (oneHotName c l) =
          if getCol r c = l then Val.vint 1 else Val.vint 0) ∧
      (labelsOf df c).countP (fun l =>
        getCol (oneHotRow df cols r) (oneHotName c l) = Val.vint 1) = 1 := by
  refine ⟨convertToOneHot_eq_map df cols, ?_⟩
  intro c hc r hr
  have hspec := oneHotRow_spec df cols hnd hfresh hnodup c hc r
  have hvnn : getCol r c ≠ Val.vnull := by
    have h := hstr r hr c hc
    intro hn
    rw [hn] at h
    simp [Val.isStr] at h
  have hlnn : ∀ l ∈ labelsOf df c, l ≠ Val.vnull := by
    intro l hl hn
    rcases labelsOf_mem df c hl with ⟨r', hr', hgc⟩
    have h := hstr r' hr' c hc
    rw [hgc, hn] at h
    simp [Val.isStr] at h
  have hval : ∀ l ∈ labelsOf df c,
      getCol (oneHotRow df cols r) (oneHotName c l) =
        if getCol r c = l then Val.vint 1 else Val.vint 0 := by
    intro l hl
    rw [hspec.2 l hl, oneHotIndicator_eq _ _ hvnn (hlnn l hl)]
  refine ⟨hspec.1, hval, ?_⟩
  have hcnt : (labelsOf df c).countP (fun l =>
      getCol (oneHotRow df cols r) (oneHotName c l) = Val.vint 1) =
      (labelsOf df c).countP (fun l => getCol r c = l) := by
    apply List.countP_congr
    intro l hl
    rw [hval l hl]
    by_cases hv : getCol r c = l
    · simp [hv]
    · simp [hv]
  rw [hcnt]
  apply countP_eq_one_of_unique _ _ (getCol r c) (List.nodup_dedup _)
    (getCol_mem_labelsOf df c hr) (by simp)
  intro b _ hpb
  exact (by simpa using hpb : getCol r c = b).symm

/-- A concrete labelled frame for the one-hot stage: two string
columns, three rows. -/
def dfC10 : DFrame :=
  [[("recipe_id", Val.vstr "a"), ("colour", Val.vstr "red"), ("country", Val.vstr "peru")],
   [("recipe_id", Val.vstr "b"), ("colour", Val.vstr "blue"), ("country", Val.vstr "peru")],
   [("recipe_id", Val.vstr "c"), ("colour", Val.vstr "red"), ("country", Val.vstr "chile")]]

/-- C10 witness: the one-hot theorem at the concrete frame with the
configured columns `colour` and `country`. -/
theorem claim_C10_witness :
    convertToOneHot ["colour", "country"] dfC10 =
      dfC10.map (oneHotRow dfC10 ["colour", "country"]) ∧
    ∀ c ∈ ["colour", "country"], ∀ r ∈ dfC10,
      hasCol (oneHotRow dfC10 ["colour", "country"] r) c = false ∧
      (∀ l ∈ labelsOf dfC10 c,
        getCol (oneHotRow dfC10 ["colour", "country"] r) (oneHotName c l) =
          if getCol r c = l then Val.vint 1 else Val.vint 0) ∧
      (labelsOf dfC10 c).countP (fun l =>
        getCol (oneHotRow dfC10 ["colour", "country"] r) (oneHotName c l) = Val.vint 1) = 1 :=
  claim_C10_one_hot_encoding dfC10 ["colour", "country"]
    (by decide) (by decide) (by decide) (by decide)

end SimilarityGenerator
